import Mathlib

/-!
# Band triangular reconstruction (`dsbmm`) and level-3 dimension checks of gonum

A shallow embedding of `lapack/testlapack/dpbtrf.go` and of `zlevel3.go`.

* The backing array of the Go slice `ab` is a `List R`; a sub-slice `ab[o:]`
  is represented by its start offset `o` (its length is `len(ab) - o`).
* A Go panic (slice expression or index out of range, BLAS argument check)
  is the result `none`.
* The arithmetic of the element type `R` is a parameter (`0`, `1`, `+`, `*`).
  The claims in exact arithmetic are proved for every commutative ring `R`;
  `Go.F64` is `float64` itself, with rounding, underflow and overflow.
* Go's `int` arguments `n`, `kd`, `ldab` are natural numbers: the embedding
  covers the non-negative arguments.
* The wrappers of `zlevel3.go` return the panic message or the list of the
  invocations of the backend `implCmplx` they make; matrix dimensions are
  integers.
-/

namespace Blas

/-- The `blas.Uplo` flag. -/
inductive Uplo where
  | Upper
  | Lower
  deriving DecidableEq, Repr

/-- The `blas.Transpose` flag. -/
inductive Transpose where
  | NoTrans
  | Trans
  | ConjTrans
  deriving DecidableEq, Repr

/-- The `blas.Diag` flag. -/
inductive Diag where
  | NonUnit
  | Unit
  deriving DecidableEq, Repr

variable {R : Type} [Zero R] [One R] [Add R] [Mul R]

/-- Unchecked read used in specifications: the element at absolute position `p`
of the backing array (zero outside it). -/
def rd (m : List R) (p : Nat) : R := m.getD p 0

/-- The element access `s[i]` for the slice starting at offset `s`:
panics when `i` is not below the slice length `len(m) - s`. -/
def load (m : List R) (s i : Nat) : Option R :=
  if s + i < m.length then some (rd m (s + i)) else none

/-- The assignment `s[i] = v` for the slice starting at offset `s`. -/
def store (m : List R) (s i : Nat) (v : R) : Option (List R) :=
  if s + i < m.length then some (m.set (s + i) v) else none

/-- The slice expression `s[lo:]` for the slice starting at offset `s`:
panics unless `lo ≤ len(s)`. The result is the offset of the new slice. -/
def sliceFrom (m : List R) (s lo : Nat) : Option Nat :=
  if s + lo ≤ m.length then some (s + lo) else none

/-- The length `len(s)` of the slice starting at offset `s`. -/
def sliceLen (m : List R) (s : Nat) : Nat := m.length - s

/-- The loop `for i := lo; i < lo + cnt; i++ { body }`. -/
def forUp {σ : Type} (body : Nat → σ → Option σ) : Nat → Nat → σ → Option σ
  | _, 0, s => some s
  | lo, cnt + 1, s => (body lo s).bind (forUp body (lo + 1) cnt)

/-- The loop `for k := n - 1; k >= 0; k-- { body }`. -/
def forDown {σ : Type} (body : Nat → σ → Option σ) : Nat → σ → Option σ
  | 0, s => some s
  | n + 1, s => (body n s).bind (forDown body n)

/-- The loop `for k := lo + cnt - 1; k >= lo; k-- { body }`: the first `cnt`
iterations of a loop counting down from `lo + cnt - 1`. -/
def forDownFrom {σ : Type} (body : Nat → σ → Option σ) : Nat → Nat → σ → Option σ
  | _, 0, s => some s
  | lo, cnt + 1, s => (body (lo + cnt) s).bind (forDownFrom body lo cnt)

/-- Modelled from the spec: the dot-product kernel behind `Ddot` and `Dtrmv`
(`internal/asm/f64`, not among the sources). It computes
`Σ_{i<n} x[i*incX] * y[i*incY]`, accumulated in increasing `i`, every element
access checked. -/
def dotAcc (m : List R) (x incX y incY : Nat) : Nat → Option R
  | 0 => some 0
  | n + 1 => do
    let s ← dotAcc m x incX y incY n
    let xv ← load m x (n * incX)
    let yv ← load m y (n * incY)
    pure (s + xv * yv)

/-- Modelled from the spec: the `axpy` kernel behind `Dsyr`
(`internal/asm/f64`, not among the sources). It performs
`a[j] += alpha * x[j*incX]` for `j = lo, …, lo + cnt - 1`, every element access
checked. -/
def axpyLoop (alpha : R) (x incX a : Nat) (lo cnt : Nat) (m : List R) : Option (List R) :=
  forUp (fun j m => do
    let xv ← load m x (j * incX)
    let av ← load m a j
    store m a j (av + xv * alpha)) lo cnt m

/-- Modelled from the spec: the BLAS kernel `Dsyr` of `blas/gonum`, which is
not among the sources. It performs the symmetric rank-one update
`A += alpha * x * xᵀ` on the triangle `ul` of the `n×n` row-major matrix `a`
with leading dimension `lda`, after the argument checks of the reference
implementation (`lda ≥ max(1, n)`, `incX ≠ 0`, `x` and `a` long enough).
The quick returns for `alpha == 0` and for a zero `x[i]`, which change the
result only when an operand is infinite or NaN, are not modelled. -/
def Dsyr (ul : Uplo) (n : Nat) (alpha : R) (x incX a lda : Nat) (m : List R) :
    Option (List R) :=
  if lda < max 1 n then none
  else if incX = 0 then none
  else if n = 0 then some m
  else if sliceLen m x ≤ (n - 1) * incX then none
  else if sliceLen m a < lda * (n - 1) + n then none
  else
    forUp (fun i m => do
      let xi ← load m x (i * incX)
      let tmp := xi * alpha
      match ul with
      | Uplo.Upper => axpyLoop tmp x incX (a + i * lda) i (n - i) m
      | Uplo.Lower => axpyLoop tmp x incX (a + i * lda) 0 (i + 1) m) 0 n m

/-- Modelled from the spec: the BLAS kernel `Dscal` of `blas/gonum`, which is
not among the sources. It scales `x[i*incX]` by `alpha` for `i < n`, after the
argument checks of the reference implementation. -/
def Dscal (n : Nat) (alpha : R) (x incX : Nat) (m : List R) : Option (List R) :=
  if incX = 0 then none
  else if n = 0 then some m
  else if sliceLen m x ≤ (n - 1) * incX then none
  else
    forUp (fun i m => do
      let xv ← load m x (i * incX)
      store m x (i * incX) (xv * alpha)) 0 n m

/-- Modelled from the spec: the BLAS kernel `Ddot` of `blas/gonum`, which is
not among the sources. It returns `Σ_{i<n} x[i*incX] * y[i*incY]`, after the
argument checks of the reference implementation. -/
def Ddot (n : Nat) (x incX y incY : Nat) (m : List R) : Option R :=
  if incX = 0 then none
  else if incY = 0 then none
  else if n = 0 then some 0
  else if sliceLen m x ≤ (n - 1) * incX then none
  else if sliceLen m y ≤ (n - 1) * incY then none
  else dotAcc m x incX y incY n

/-- Modelled from the spec: one row of the triangular product of `Dtrmv`
(`blas/gonum`, not among the sources) for `NoTrans`:
`x[i] = d(i) + Σ_{j ∈ [lo, lo+cnt)} a[i*lda + j] * x[j]` where `d(i)` is
`a[i*lda+i] * x[i]` for a non-unit diagonal and `x[i]` otherwise. -/
def trmvRow (d : Diag) (a lda x incX : Nat) (i lo cnt : Nat) (m : List R) :
    Option (List R) := do
  let xi ← load m x (i * incX)
  let dv ← match d with
    | Diag.NonUnit => (load m a (i * lda + i)).map (fun aii => aii * xi)
    | Diag.Unit => some xi
  let s ← dotAcc m (a + i * lda + lo) 1 (x + lo * incX) incX cnt
  store m x (i * incX) (dv + s)

/-- Modelled from the spec: one column step of the triangular product of
`Dtrmv` (`blas/gonum`, not among the sources) for `Trans`:
`x[j] += x[i] * a[i*lda + j]` for `j ∈ [lo, lo+cnt)`, then `x[i] *= a[i*lda+i]`
for a non-unit diagonal. -/
def trmvCol (d : Diag) (a lda x incX : Nat) (i lo cnt : Nat) (m : List R) :
    Option (List R) := do
  let xi ← load m x (i * incX)
  let m ← forUp (fun j m => do
    let av ← load m a (i * lda + j)
    let xj ← load m x (j * incX)
    store m x (j * incX) (xj + xi * av)) lo cnt m
  match d with
  | Diag.NonUnit => do
    let aii ← load m a (i * lda + i)
    let xv ← load m x (i * incX)
    store m x (i * incX) (xv * aii)
  | Diag.Unit => some m

/-- Modelled from the spec: the BLAS kernel `Dtrmv` of `blas/gonum`, which is
not among the sources. It overwrites `x` with the triangular matrix-vector
product `op(A) * x` for the `n×n` row-major triangular matrix `a` with leading
dimension `lda`, after the argument checks of the reference implementation
(`lda ≥ max(1, n)`, `incX ≠ 0`, `a` and `x` long enough). -/
def Dtrmv (ul : Uplo) (tA : Transpose) (d : Diag) (n : Nat) (a lda x incX : Nat)
    (m : List R) : Option (List R) :=
  if lda < max 1 n then none
  else if incX = 0 then none
  else if n = 0 then some m
  else if sliceLen m a < lda * (n - 1) + n then none
  else if sliceLen m x ≤ (n - 1) * incX then none
  else
    match tA, ul with
    | Transpose.NoTrans, Uplo.Upper =>
      forUp (fun i m => trmvRow d a lda x incX i (i + 1) (n - (i + 1)) m) 0 n m
    | Transpose.NoTrans, Uplo.Lower =>
      forDown (fun i m => trmvRow d a lda x incX i 0 i m) n m
    | _, Uplo.Upper =>
      forDown (fun i m => trmvCol d a lda x incX i (i + 1) (n - (i + 1)) m) n m
    | _, Uplo.Lower =>
      forUp (fun i m => trmvCol d a lda x incX i 0 i m) 0 n m

/-- Modelled from the spec: the interface `blas.Float64` of the value returned
by `blas64.Implementation()` (package `blas`, not among the sources), reduced
to the four kernels `dsbmm` calls, each acting on the shared backing array. -/
structure Float64 (R : Type) where
  Dsyr : Uplo → Nat → R → Nat → Nat → Nat → Nat → List R → Option (List R)
  Dscal : Nat → R → Nat → Nat → List R → Option (List R)
  Ddot : Nat → Nat → Nat → Nat → Nat → List R → Option R
  Dtrmv : Uplo → Transpose → Diag → Nat → Nat → Nat → Nat → Nat → List R → Option (List R)

/-- Modelled from the spec: the backend registered by default,
`blas/gonum.Implementation` (not among the sources). -/
def Implementation : Float64 R :=
  ⟨Dsyr, Dscal, Ddot, Dtrmv⟩

end Blas

namespace Testlapack

open Blas

variable {R : Type} [Zero R] [One R] [Add R] [Mul R]

/-- Body of the `blas.Upper` loop of `dsbmm` for row `k`. -/
def upperStep (bi : Float64 R) (n kd ldab : Nat) (k : Nat) (ab : List R) :
    Option (List R) := do
  let klen := min kd (n - k - 1)
  let ab ← (if klen > 0 then do
      let x ← sliceFrom ab 0 (k * ldab + 1)
      let a ← sliceFrom ab 0 ((k + 1) * ldab)
      bi.Dsyr Uplo.Upper klen 1 x 1 a (ldab - 1) ab
    else some ab)
  let alpha ← load ab 0 (k * ldab)
  let x ← sliceFrom ab 0 (k * ldab)
  bi.Dscal (klen + 1) alpha x 1 ab

/-- Body of the `blas.Lower` loop of `dsbmm` for row `k`. -/
def lowerStep (bi : Float64 R) (kd ldab : Nat) (k : Nat) (ab : List R) :
    Option (List R) := do
  let kc := max 0 (kd - k)
  let klen := kd - kc
  let x ← sliceFrom ab 0 (k * ldab + kc)
  let y ← sliceFrom ab 0 (k * ldab + kc)
  let v ← bi.Ddot (klen + 1) x 1 y 1 ab
  let ab ← store ab 0 (k * ldab + kd) v
  if klen > 0 then do
    let a ← sliceFrom ab 0 ((k - klen) * ldab + kd)
    let x ← sliceFrom ab 0 (k * ldab + kc)
    bi.Dtrmv Uplo.Lower Transpose.NoTrans Diag.NonUnit klen a (ldab - 1) x 1 ab
  else some ab

/-- The function `dsbmm` with the BLAS backend `bi` it obtains from
`blas64.Implementation()` made explicit. -/
def dsbmmWith (bi : Float64 R) (uplo : Uplo) (n kd : Nat) (ab : List R) (ldab : Nat) :
    Option (List R) :=
  match uplo with
  | Uplo.Upper => forDown (upperStep bi n kd ldab) n ab
  | Uplo.Lower => forDown (lowerStep bi kd ldab) n ab

/-- The function `dsbmm`: computes in place `Uᵀ*U` (Upper) or `L*Lᵀ` (Lower)
of the triangular band matrix stored in `ab`. -/
def dsbmm (uplo : Uplo) (n kd : Nat) (ab : List R) (ldab : Nat) : Option (List R) :=
  dsbmmWith Implementation uplo n kd ab ldab

end Testlapack

/-! ## Go's `float64`

The element type of the buffers in `dpbtrf.go` is Go's `float64`, the IEEE 754
binary64 format with rounding to nearest, ties to even. The model below
represents a finite value by an integer significand and a binary exponent; the
sign of zero and the payload of a NaN are not represented. -/

namespace Go

/-- Number of binary digits of `n`, with `fuel` bounding the recursion. -/
def bitLenAux : Nat → Nat → Nat
  | 0, _ => 0
  | fuel + 1, n => if n = 0 then 0 else bitLenAux fuel (n / 2) + 1

/-- Number of binary digits of `n`: `0` for `0`, otherwise `⌊log₂ n⌋ + 1`. -/
def bitLen (n : Nat) : Nat := bitLenAux n n

/-- A value of type `float64`: the finite value `m·2^e`, an infinity, or NaN. -/
inductive F64 where
  | fin (m : Int) (e : Int)
  | inf (neg : Bool)
  | nan
  deriving DecidableEq, Repr

namespace F64

/-- The `float64` nearest to the exact value `m·2^e`, ties to even. The spacing
of the representable values around `m·2^e` is `2^q` with
`q = max(bitLen |m| + e - 53, -1074)`; a result of magnitude `2^1024` or more
is an infinity. -/
def round (m e : Int) : F64 :=
  if m = 0 then fin 0 0
  else
    let a : Nat := m.natAbs
    let q : Int := max ((bitLen a : Int) + e - 53) (-1074)
    if q ≤ e then
      (if (bitLen a : Int) + e > 1024 then inf (decide (m < 0)) else fin m e)
    else
      let sh : Nat := (q - e).toNat
      let hi : Nat := a / 2 ^ sh
      let lo : Nat := a % 2 ^ sh
      let half : Nat := 2 ^ (sh - 1)
      let r : Nat := if lo > half ∨ (lo = half ∧ hi % 2 = 1) then hi + 1 else hi
      if r = 0 then fin 0 0
      else if (bitLen r : Int) + q > 1024 then inf (decide (m < 0))
      else fin (if m < 0 then -(r : Int) else (r : Int)) q

/-- The product `x * y` of two `float64` values. -/
def mul : F64 → F64 → F64
  | fin m1 e1, fin m2 e2 => round (m1 * m2) (e1 + e2)
  | fin m _, inf s => if m = 0 then nan else inf (xor s (decide (m < 0)))
  | inf s, fin m _ => if m = 0 then nan else inf (xor s (decide (m < 0)))
  | inf s, inf t => inf (xor s t)
  | _, _ => nan

/-- The sum `x + y` of two `float64` values. -/
def add : F64 → F64 → F64
  | fin m1 e1, fin m2 e2 =>
    let e : Int := min e1 e2
    round (m1 * 2 ^ (e1 - e).toNat + m2 * 2 ^ (e2 - e).toNat) e
  | fin _ _, inf s => inf s
  | inf s, fin _ _ => inf s
  | inf s, inf t => if s = t then inf s else nan
  | _, _ => nan

instance : Zero F64 := ⟨fin 0 0⟩

instance : One F64 := ⟨fin 1 0⟩

instance : Add F64 := ⟨add⟩

instance : Mul F64 := ⟨mul⟩

/-- The rational number a finite `float64` value denotes; `0` for an infinity
and for NaN, which denote no number. -/
def toRat : F64 → ℚ
  | fin m e => (m : ℚ) * (2 : ℚ) ^ e
  | _ => 0

end F64

end Go

/-! ## Definitions used to state the claims -/

namespace Testlapack

open Blas

variable {R : Type} [CommRing R]

/-- Entry `U[r,c]` of the upper triangular band matrix stored in `ab`:
`ab[r*ldab + (c-r)]`. -/
def bandU (ab : List R) (ldab : Nat) (r c : Nat) : R := rd ab (r * ldab + (c - r))

/-- Entry `L[r,c]` of the lower triangular band matrix stored in `ab`:
`ab[r*ldab + kd - (r-c)]`. -/
def bandL (ab : List R) (ldab kd : Nat) (r c : Nat) : R := rd ab (r * ldab + kd - (r - c))

/-- Offset `j` of row `i` is a stored band position: the positions visited by
the comparison loops of `dpbtrfTest`, `j < min(kd+1, n-i)` for Upper and
`max(0, kd-i) ≤ j < kd+1` for Lower. -/
def stored (uplo : Uplo) (n kd : Nat) (i j : Nat) : Prop :=
  match uplo with
  | Uplo.Upper => i < n ∧ j < min (kd + 1) (n - i)
  | Uplo.Lower => i < n ∧ max 0 (kd - i) ≤ j ∧ j < kd + 1

instance (uplo : Uplo) (n kd i j : Nat) : Decidable (stored uplo n kd i j) := by
  cases uplo <;> (unfold stored; infer_instance)

/-- Offset of the diagonal element within a row, as set by `dpbtrfTest`:
`ab[i*ldab]` for Upper and `ab[i*ldab+kd]` for Lower. -/
def diagOffset (uplo : Uplo) (kd : Nat) : Nat :=
  match uplo with
  | Uplo.Upper => 0
  | Uplo.Lower => kd

/-- Entry `(i, j)` of the symmetric matrix represented by the band buffer `ab`:
the stored triangle mirrored across the diagonal, zero outside the band. -/
def symBand (uplo : Uplo) (kd ldab : Nat) (ab : List R) (i j : Nat) : R :=
  if max i j - min i j ≤ kd then
    match uplo with
    | Uplo.Upper => rd ab (min i j * ldab + (max i j - min i j))
    | Uplo.Lower => rd ab (max i j * ldab + kd - (max i j - min i j))
  else 0

/-- The quadratic form `xᵀ A x` of an `n×n` matrix. -/
def quadForm (n : Nat) (A : Nat → Nat → R) (x : Nat → R) : R :=
  ∑ i in Finset.range n, ∑ j in Finset.range n, x i * A i j * x j

/-- Body of the loop of `dsbmm` selected by `uplo`, for row `k`. -/
def loopBody (bi : Float64 R) (uplo : Uplo) (n kd ldab : Nat) (k : Nat) (ab : List R) :
    Option (List R) :=
  match uplo with
  | Uplo.Upper => upperStep bi n kd ldab k ab
  | Uplo.Lower => lowerStep bi kd ldab k ab

/-- State of the buffer at the moment iteration `k` of the loop of `dsbmm`
begins: the iterations `n-1, …, k+1` have been executed. -/
def stateBefore (uplo : Uplo) (n kd : Nat) (ab : List R) (ldab : Nat) (k : Nat) :
    Option (List R) :=
  forDownFrom (loopBody Implementation uplo n kd ldab) (k + 1) (n - (k + 1)) ab

end Testlapack

namespace Blas

variable {R : Type} [CommRing R]

/-- The `blas.Order` flag. -/
inductive Order where
  | RowMajor
  | ColMajor
  deriving DecidableEq, Repr

/-- The `blas.Side` flag. -/
inductive Side where
  | Left
  | Right
  deriving DecidableEq, Repr

/-- Modelled from the spec: the type `GeneralCmplx`, declared outside the
sources: a dense complex matrix with the fields `zlevel3.go` reads. -/
structure GeneralCmplx (K : Type) where
  Order : Blas.Order
  Rows : Int
  Cols : Int
  Stride : Int
  Data : List K

/-- Modelled from the spec: the type `SymmetricCmplx`, declared outside the
sources: a symmetric complex matrix with the fields `zlevel3.go` reads. -/
structure SymmetricCmplx (K : Type) where
  Order : Blas.Order
  Uplo : Blas.Uplo
  N : Int
  Stride : Int
  Data : List K

/-- Modelled from the spec: the type `TriangularCmplx`, declared outside the
sources: a triangular complex matrix with the fields `zlevel3.go` reads. -/
structure TriangularCmplx (K : Type) where
  Order : Blas.Order
  Uplo : Blas.Uplo
  Diag : Blas.Diag
  N : Int
  Stride : Int
  Data : List K

/-- Modelled from the spec: the type `Hermitian`, declared outside the sources:
a Hermitian matrix with the fields `zlevel3.go` reads. -/
structure Hermitian (K : Type) where
  Order : Blas.Order
  Uplo : Blas.Uplo
  N : Int
  Stride : Int
  Data : List K

/-- Modelled from the spec: an invocation of the backend `implCmplx`, a package
variable declared outside the sources. Each constructor is one level-3 routine
of the backend with the arguments it is called with (`K` stands for
`complex128`, `F` for `float64`). -/
inductive Call (K F : Type) where
  | Zgemm (o : Order) (tA tB : Transpose) (m n k : Int) (alpha : K) (a : List K) (lda : Int)
      (b : List K) (ldb : Int) (beta : K) (c : List K) (ldc : Int)
  | Zsymm (o : Order) (s : Side) (ul : Uplo) (m n : Int) (alpha : K) (a : List K) (lda : Int)
      (b : List K) (ldb : Int) (beta : K) (c : List K) (ldc : Int)
  | Zsyrk (o : Order) (ul : Uplo) (t : Transpose) (n k : Int) (alpha : K) (a : List K)
      (lda : Int) (beta : K) (c : List K) (ldc : Int)
  | Zsyr2k (o : Order) (ul : Uplo) (t : Transpose) (n k : Int) (alpha : K) (a : List K)
      (lda : Int) (b : List K) (ldb : Int) (beta : K) (c : List K) (ldc : Int)
  | Ztrmm (o : Order) (s : Side) (ul : Uplo) (tA : Transpose) (d : Diag) (m n : Int)
      (alpha : K) (a : List K) (lda : Int) (b : List K) (ldb : Int)
  | Ztrsm (o : Order) (s : Side) (ul : Uplo) (tA : Transpose) (d : Diag) (m n : Int)
      (alpha : K) (a : List K) (lda : Int) (b : List K) (ldb : Int)
  | Zhemm (o : Order) (s : Side) (ul : Uplo) (m n : Int) (alpha : K) (a : List K) (lda : Int)
      (b : List K) (ldb : Int) (beta : K) (c : List K) (ldc : Int)
  | Zherk (o : Order) (ul : Uplo) (t : Transpose) (n k : Int) (alpha : F) (a : List K)
      (lda : Int) (beta : F) (c : List K) (ldc : Int)
  | Zher2k (o : Order) (ul : Uplo) (t : Transpose) (n k : Int) (alpha : K) (a : List K)
      (lda : Int) (b : List K) (ldb : Int) (beta : F) (c : List K) (ldc : Int)

/-- The panic message of the dimension checks. -/
def dimensionMismatch : String := "blas: dimension mismatch"

section Level3

variable {K F : Type}

/-- The function `Zgemm`: the result is the panic message or the list of the
backend invocations made. -/
def Zgemm (tA tB : Transpose) (alpha : K) (A B : GeneralCmplx K) (beta : K)
    (C : GeneralCmplx K) : Except String (List (Call K F)) := do
  let m : Int := if tA = Transpose.NoTrans then A.Rows else A.Cols
  let k : Int := if tA = Transpose.NoTrans then A.Cols else A.Rows
  let n : Int := if tB = Transpose.NoTrans then B.Cols else B.Rows
  (if tB = Transpose.NoTrans then
      (if k ≠ B.Rows then Except.error dimensionMismatch else Except.ok ())
    else
      (if k ≠ B.Cols then Except.error dimensionMismatch else Except.ok ()))
  (if m ≠ C.Rows then Except.error dimensionMismatch else Except.ok ())
  (if n ≠ C.Cols then Except.error dimensionMismatch else Except.ok ())
  Except.ok [Call.Zgemm A.Order tA tB m n k alpha A.Data A.Stride
    B.Data B.Stride beta C.Data C.Stride]

/-- The function `Zsymm`. -/
def Zsymm (s : Side) (alpha : K) (A : SymmetricCmplx K) (B : GeneralCmplx K) (beta : K)
    (C : GeneralCmplx K) : Except String (List (Call K F)) := do
  let m : Int := if s = Side.Left then A.N else B.Rows
  let n : Int := if s = Side.Left then B.Cols else A.N
  (if s = Side.Left then
      (if m ≠ B.Rows then Except.error dimensionMismatch else Except.ok ())
    else
      (if n ≠ B.Cols then Except.error dimensionMismatch else Except.ok ()))
  (if m ≠ C.Rows then Except.error dimensionMismatch else Except.ok ())
  (if n ≠ C.Cols then Except.error dimensionMismatch else Except.ok ())
  Except.ok [Call.Zsymm A.Order s A.Uplo m n alpha A.Data A.Stride
    B.Data B.Stride beta C.Data C.Stride]

/-- The function `Zsyrk`. -/
def Zsyrk (t : Transpose) (alpha : K) (A : GeneralCmplx K) (beta : K)
    (C : SymmetricCmplx K) : Except String (List (Call K F)) := do
  let n : Int := if t = Transpose.NoTrans then A.Rows else A.Cols
  let k : Int := if t = Transpose.NoTrans then A.Cols else A.Rows
  (if n ≠ C.N then Except.error dimensionMismatch else Except.ok ())
  Except.ok [Call.Zsyrk A.Order C.Uplo t n k alpha A.Data A.Stride beta
    C.Data C.Stride]

/-- The function `Zsyr2k`. -/
def Zsyr2k (t : Transpose) (alpha : K) (A B : GeneralCmplx K) (beta : K)
    (C : SymmetricCmplx K) : Except String (List (Call K F)) := do
  let n : Int := if t = Transpose.NoTrans then A.Rows else A.Cols
  let k : Int := if t = Transpose.NoTrans then A.Cols else A.Rows
  (if t = Transpose.NoTrans then
      (if n ≠ B.Rows ∨ k ≠ B.Cols then Except.error dimensionMismatch else Except.ok ())
    else
      (if k ≠ B.Rows ∨ n ≠ B.Cols then Except.error dimensionMismatch else Except.ok ()))
  (if n ≠ C.N then Except.error dimensionMismatch else Except.ok ())
  Except.ok [Call.Zsyr2k A.Order C.Uplo t n k alpha A.Data A.Stride
    B.Data B.Stride beta C.Data C.Stride]

/-- The function `Ztrmm`. -/
def Ztrmm (s : Side) (tA : Transpose) (alpha : K) (A : TriangularCmplx K)
    (B : GeneralCmplx K) : Except String (List (Call K F)) := do
  (if s = Side.Left then
      (if A.N ≠ B.Rows then Except.error dimensionMismatch else Except.ok ())
    else
      (if A.N ≠ B.Cols then Except.error dimensionMismatch else Except.ok ()))
  Except.ok [Call.Ztrmm A.Order s A.Uplo tA A.Diag B.Rows B.Cols alpha A.Data A.Stride
    B.Data B.Stride]

/-- The function `Ztrsm`. -/
def Ztrsm (s : Side) (tA : Transpose) (alpha : K) (A : TriangularCmplx K)
    (B : GeneralCmplx K) : Except String (List (Call K F)) := do
  (if s = Side.Left then
      (if A.N ≠ B.Rows then Except.error dimensionMismatch else Except.ok ())
    else
      (if A.N ≠ B.Cols then Except.error dimensionMismatch else Except.ok ()))
  Except.ok [Call.Ztrsm A.Order s A.Uplo tA A.Diag B.Rows B.Cols alpha A.Data A.Stride
    B.Data B.Stride]

/-- The function `Zhemm`. -/
def Zhemm (s : Side) (alpha : K) (A : Hermitian K) (B : GeneralCmplx K) (beta : K)
    (C : GeneralCmplx K) : Except String (List (Call K F)) := do
  let m : Int := if s = Side.Left then A.N else B.Rows
  let n : Int := if s = Side.Left then B.Cols else A.N
  (if s = Side.Left then
      (if m ≠ B.Rows then Except.error dimensionMismatch else Except.ok ())
    else
      (if n ≠ B.Cols then Except.error dimensionMismatch else Except.ok ()))
  (if m ≠ C.Rows then Except.error dimensionMismatch else Except.ok ())
  (if n ≠ C.Cols then Except.error dimensionMismatch else Except.ok ())
  Except.ok [Call.Zhemm A.Order s A.Uplo m n alpha A.Data A.Stride
    B.Data B.Stride beta C.Data C.Stride]

/-- The function `Zherk`. -/
def Zherk (t : Transpose) (alpha : F) (A : GeneralCmplx K) (beta : F)
    (C : Hermitian K) : Except String (List (Call K F)) := do
  let n : Int := if t = Transpose.NoTrans then A.Rows else A.Cols
  let k : Int := if t = Transpose.NoTrans then A.Cols else A.Rows
  (if n ≠ C.N then Except.error dimensionMismatch else Except.ok ())
  Except.ok [Call.Zherk A.Order C.Uplo t n k alpha A.Data A.Stride beta
    C.Data C.Stride]

/-- The function `Zher2k`. -/
def Zher2k (t : Transpose) (alpha : K) (A B : GeneralCmplx K) (beta : F)
    (C : Hermitian K) : Except String (List (Call K F)) := do
  let n : Int := if t = Transpose.NoTrans then A.Rows else A.Cols
  let k : Int := if t = Transpose.NoTrans then A.Cols else A.Rows
  (if t = Transpose.NoTrans then
      (if n ≠ B.Rows ∨ k ≠ B.Cols then Except.error dimensionMismatch else Except.ok ())
    else
      (if k ≠ B.Rows ∨ n ≠ B.Cols then Except.error dimensionMismatch else Except.ok ()))
  (if n ≠ C.N then Except.error dimensionMismatch else Except.ok ())
  Except.ok [Call.Zher2k A.Order C.Uplo t n k alpha A.Data A.Stride
    B.Data B.Stride beta C.Data C.Stride]

/-- Number of rows of `op(A)`: `A.Rows` for `NoTrans`, `A.Cols` otherwise. -/
def opRows (t : Transpose) (A : GeneralCmplx K) : Int :=
  if t = Transpose.NoTrans then A.Rows else A.Cols

/-- Number of columns of `op(A)`: `A.Cols` for `NoTrans`, `A.Rows` otherwise. -/
def opCols (t : Transpose) (A : GeneralCmplx K) : Int :=
  if t = Transpose.NoTrans then A.Cols else A.Rows

end Level3

/-! ## Memory and loop lemmas -/

theorem rd_set (m : List R) (q p : Nat) (v : R) (hq : q < m.length) :
    rd (m.set q v) p = if p = q then v else rd m p := by
  unfold rd
  by_cases h : p = q
  · subst h
    simp [List.getD_eq_getElem?_getD, List.getElem?_set, hq]
  · have h2 : q ≠ p := fun e => h e.symm
    simp [List.getD_eq_getElem?_getD, List.getElem?_set, h, h2]

theorem load_eq (m : List R) (s i : Nat) (h : s + i < m.length) :
    load m s i = some (rd m (s + i)) := by
  simp [load, h]

omit [CommRing R] in
theorem store_eq (m : List R) (s i : Nat) (v : R) (h : s + i < m.length) :
    store m s i v = some (m.set (s + i) v) := by
  simp [store, h]

omit [CommRing R] in
theorem sliceFrom_eq (m : List R) (s lo : Nat) (h : s + lo ≤ m.length) :
    sliceFrom m s lo = some (s + lo) := by
  simp [sliceFrom, h]

theorem forUp_inv {σ : Type} (body : Nat → σ → Option σ) (P : Nat → σ → Prop) :
    ∀ (cnt lo : Nat) (s : σ), P lo s →
      (∀ i t, lo ≤ i → i < lo + cnt → P i t → ∃ t', body i t = some t' ∧ P (i + 1) t') →
      ∃ s', forUp body lo cnt s = some s' ∧ P (lo + cnt) s' := by
  intro cnt
  induction cnt with
  | zero => intro lo s h0 _; exact ⟨s, rfl, by simpa using h0⟩
  | succ c ih =>
    intro lo s h0 hstep
    obtain ⟨t, ht, hPt⟩ := hstep lo s (Nat.le_refl _) (by omega) h0
    obtain ⟨s', hs', hP'⟩ := ih (lo + 1) t hPt
      (fun i u h1 h2 hP => hstep i u (by omega) (by omega) hP)
    refine ⟨s', ?_, ?_⟩
    · simp [forUp, ht, hs']
    · have e : lo + (c + 1) = lo + 1 + c := by omega
      rw [e]; exact hP'

theorem forDown_inv {σ : Type} (body : Nat → σ → Option σ) (P : Nat → σ → Prop) :
    ∀ (n : Nat) (s : σ), P n s →
      (∀ k t, k < n → P (k + 1) t → ∃ t', body k t = some t' ∧ P k t') →
      ∃ s', forDown body n s = some s' ∧ P 0 s' := by
  intro n
  induction n with
  | zero => intro s h0 _; exact ⟨s, rfl, h0⟩
  | succ c ih =>
    intro s h0 hstep
    obtain ⟨t, ht, hPt⟩ := hstep c s (by omega) h0
    obtain ⟨s', hs', hP'⟩ := ih t hPt (fun k u h1 hP => hstep k u (by omega) hP)
    exact ⟨s', by simp [forDown, ht, hs'], hP'⟩

/-! ## Specifications of the BLAS kernels for the calls made by `dsbmm` -/

theorem dotAcc_spec (m : List R) (x y : Nat) :
    ∀ n, x + n ≤ m.length → y + n ≤ m.length →
      dotAcc m x 1 y 1 n = some (∑ j in Finset.range n, rd m (x + j) * rd m (y + j)) := by
  intro n
  induction n with
  | zero => intro _ _; simp [dotAcc]
  | succ c ih =>
    intro hx hy
    have h1 := ih (by omega) (by omega)
    simp only [dotAcc, h1, Nat.mul_one, Option.bind_eq_bind, Option.some_bind]
    rw [load_eq m x c (by omega), load_eq m y c (by omega)]
    simp [Finset.sum_range_succ]

theorem Ddot_spec (m : List R) (n x y : Nat) (hx : x + n ≤ m.length)
    (hy : y + n ≤ m.length) :
    Ddot n x 1 y 1 m = some (∑ j in Finset.range n, rd m (x + j) * rd m (y + j)) := by
  unfold Ddot
  by_cases hn : n = 0
  · subst hn; simp
  · have h1 : ¬ sliceLen m x ≤ (n - 1) * 1 := by unfold sliceLen; omega
    have h2 : ¬ sliceLen m y ≤ (n - 1) * 1 := by unfold sliceLen; omega
    simp only [one_ne_zero, if_false, hn, h1, h2]
    exact dotAcc_spec m x y n hx hy

theorem Dscal_spec (m : List R) (n : Nat) (alpha : R) (x : Nat) (hx : x + n ≤ m.length) :
    ∃ m', Dscal n alpha x 1 m = some m' ∧ m'.length = m.length ∧
      ∀ p, rd m' p = if x ≤ p ∧ p < x + n then rd m p * alpha else rd m p := by
  unfold Dscal
  by_cases hn : n = 0
  · subst hn
    refine ⟨m, by simp, rfl, fun p => ?_⟩
    rw [if_neg (by omega)]
  · have h1 : ¬ sliceLen m x ≤ (n - 1) * 1 := by unfold sliceLen; omega
    simp only [one_ne_zero, if_false, hn, h1]
    have key := forUp_inv (fun i (m : List R) => do
        let xv ← load m x (i * 1)
        store m x (i * 1) (xv * alpha))
      (fun i m' => m'.length = m.length ∧
        ∀ p, rd m' p = if x ≤ p ∧ p < x + i then rd m p * alpha else rd m p)
      n 0 m ⟨rfl, fun p => by rw [if_neg (by omega)]⟩ ?_
    · simpa using key
    · intro i t _ hi ⟨hlen, hrd⟩
      have hb : x + i < t.length := by omega
      refine ⟨t.set (x + i) (rd t (x + i) * alpha), ?_, by simp [hlen], fun p => ?_⟩
      · simp [load_eq t x i hb, store_eq t x i _ hb]
      · rw [rd_set _ _ _ _ hb]
        by_cases hp : p = x + i
        · subst hp
          rw [if_pos rfl, hrd, if_neg (by omega), if_pos (by omega)]
        · rw [if_neg hp, hrd]
          by_cases hq : x ≤ p ∧ p < x + i
          · rw [if_pos hq, if_pos (by omega)]
          · rw [if_neg hq, if_neg (by omega)]

theorem mul_succ_le (i k ld : Nat) (h : i < k) : i * ld + ld ≤ k * ld := by
  have := Nat.mul_le_mul_right ld (Nat.succ_le_of_lt h)
  rw [Nat.succ_mul] at this
  exact this

theorem axpyLoop_spec (m : List R) (alpha : R) (x a lo cnt : Nat)
    (hx : x + lo + cnt ≤ a + lo) (ha : a + lo + cnt ≤ m.length) :
    ∃ m', axpyLoop alpha x 1 a lo cnt m = some m' ∧ m'.length = m.length ∧
      ∀ p, rd m' p = if a + lo ≤ p ∧ p < a + lo + cnt
        then rd m p + rd m (x + (p - a)) * alpha else rd m p := by
  unfold axpyLoop
  have key := forUp_inv (fun j (m : List R) => do
      let xv ← load m x (j * 1)
      let av ← load m a j
      store m a j (av + xv * alpha))
    (fun j m' => m'.length = m.length ∧
      ∀ p, rd m' p = if a + lo ≤ p ∧ p < a + j
        then rd m p + rd m (x + (p - a)) * alpha else rd m p)
    cnt lo m ⟨rfl, fun p => by rw [if_neg (by omega)]⟩ ?_
  · obtain ⟨m', h1, h2, h3⟩ := key
    refine ⟨m', h1, h2, fun p => ?_⟩
    rw [h3 p]
    by_cases hq : a + lo ≤ p ∧ p < a + (lo + cnt)
    · rw [if_pos hq, if_pos (by omega)]
    · rw [if_neg hq, if_neg (by omega)]
  · intro j t hj1 hj2 ⟨hlen, hrd⟩
    have hb : a + j < t.length := by omega
    have hbx : x + j < t.length := by omega
    refine ⟨t.set (a + j) (rd t (a + j) + rd t (x + j) * alpha), ?_, by simp [hlen],
      fun p => ?_⟩
    · simp [load_eq t x j hbx, load_eq t a j hb, store_eq t a j _ hb]
    · rw [rd_set _ _ _ _ hb]
      by_cases hp : p = a + j
      · subst hp
        rw [if_pos rfl, hrd, if_neg (by omega), hrd, if_neg (by omega), if_pos (by omega)]
        congr 3
        omega
      · rw [if_neg hp, hrd]
        by_cases hq : a + lo ≤ p ∧ p < a + j
        · rw [if_pos hq, if_pos (by omega)]
        · rw [if_neg hq, if_neg (by omega)]

theorem Dsyr_spec (m : List R) (n : Nat) (alpha : R) (x a lda : Nat)
    (hlda : max 1 n ≤ lda) (hx : x + n ≤ a) (ha : a + (lda * (n - 1) + n) ≤ m.length) :
    ∃ m', Dsyr Uplo.Upper n alpha x 1 a lda m = some m' ∧ m'.length = m.length ∧
      (∀ i j, i ≤ j → j < n →
        rd m' (a + i * lda + j) =
          rd m (a + i * lda + j) + rd m (x + j) * (rd m (x + i) * alpha)) ∧
      (∀ p, (∀ i j, i ≤ j → j < n → p ≠ a + i * lda + j) → rd m' p = rd m p) := by
  unfold Dsyr
  by_cases hn : n = 0
  · subst hn
    have h0 : ¬ lda < max 1 0 := by omega
    refine ⟨m, by simp only [h0, one_ne_zero, if_false, if_true], rfl, fun i j _ hj => absurd hj (by omega), fun p _ => rfl⟩
  · have h0 : ¬ lda < max 1 n := by omega
    have h1 : ¬ sliceLen m x ≤ (n - 1) * 1 := by unfold sliceLen; omega
    have h2 : ¬ sliceLen m a < lda * (n - 1) + n := by unfold sliceLen; omega
    simp only [one_ne_zero, if_false, hn, h0, h1, h2]
    have hnl : n ≤ lda := by omega
    have hrow : ∀ i, i < n → a + i * lda + n ≤ m.length := by
      intro i hi
      have := Nat.mul_le_mul_right lda (show i ≤ n - 1 by omega)
      rw [Nat.mul_comm (n - 1) lda] at this
      omega
    have key := forUp_inv (fun i (m : List R) => do
        let xi ← load m x (i * 1)
        let tmp := xi * alpha
        match Uplo.Upper with
        | Uplo.Upper => axpyLoop tmp x 1 (a + i * lda) i (n - i) m
        | Uplo.Lower => axpyLoop tmp x 1 (a + i * lda) 0 (i + 1) m)
      (fun i0 m' => m'.length = m.length ∧
        (∀ i j, i < i0 → i ≤ j → j < n →
          rd m' (a + i * lda + j) =
            rd m (a + i * lda + j) + rd m (x + j) * (rd m (x + i) * alpha)) ∧
        (∀ p, (∀ i j, i < i0 → i ≤ j → j < n → p ≠ a + i * lda + j) → rd m' p = rd m p))
      n 0 m ⟨rfl, fun i j hi => absurd hi (by omega), fun p _ => rfl⟩ ?_
    · obtain ⟨m', h1, h2, h3, h4⟩ := key
      simp only [Nat.zero_add] at h3 h4
      refine ⟨m', h1, h2, fun i j hij hj => h3 i j (by omega) hij hj, fun p hp => h4 p ?_⟩
      intro i j _ hij hj
      exact hp i j hij hj
    · intro i0 t _ hi0 ⟨hlen, hU, hF⟩
      simp only [Nat.zero_add] at hi0
      have hbx : x + i0 < t.length := by omega
      have hrow0 := hrow i0 hi0
      obtain ⟨t', ht', hlen', hrd'⟩ := axpyLoop_spec t (rd t (x + i0) * alpha) x
        (a + i0 * lda) i0 (n - i0) (by omega) (by omega)
      have hxt : ∀ j, j < n → rd t (x + j) = rd m (x + j) := by
        intro j hj
        apply hF
        intro i j' _ _ _
        omega
      refine ⟨t', ?_, by omega, ?_, ?_⟩
      · simp [load_eq t x i0 hbx, ht']
      · intro i j hi hij hj
        rw [hrd']
        by_cases hii : i = i0
        · subst hii
          rw [if_pos (by omega)]
          have e : x + (a + i * lda + j - (a + i * lda)) = x + j := by omega
          rw [e, hxt j hj, hxt i (by omega)]
          congr 1
          apply hF
          intro i' j' hi' _ hj'
          have := mul_succ_le i' i lda hi'
          omega
        · have hlt : i < i0 := by omega
          have := mul_succ_le i i0 lda hlt
          rw [if_neg (by omega)]
          exact hU i j hlt hij hj
      · intro p hp
        rw [hrd']
        by_cases hq : a + i0 * lda + i0 ≤ p ∧ p < a + i0 * lda + i0 + (n - i0)
        · exfalso
          exact hp i0 (p - (a + i0 * lda)) (by omega) (by omega) (by omega) (by omega)
        · rw [if_neg hq]
          apply hF
          intro i j hi hij hj
          exact hp i j (by omega) hij hj

theorem Dtrmv_spec (m : List R) (n a lda x : Nat)
    (hlda : max 1 n ≤ lda) (ha : a + (lda * (n - 1) + n) ≤ x) (hx : x + n ≤ m.length) :
    ∃ m', Dtrmv Uplo.Lower Transpose.NoTrans Diag.NonUnit n a lda x 1 m = some m' ∧
      m'.length = m.length ∧
      ∀ p, rd m' p = if x ≤ p ∧ p < x + n
        then ∑ j in Finset.range (p - x + 1), rd m (a + (p - x) * lda + j) * rd m (x + j)
        else rd m p := by
  unfold Dtrmv
  have h0 : ¬ lda < max 1 n := by omega
  by_cases hn : n = 0
  · subst hn
    refine ⟨m, by simp only [h0, one_ne_zero, if_false, if_true], rfl, fun p => ?_⟩
    rw [if_neg (by omega)]
  · have h1 : ¬ sliceLen m x ≤ (n - 1) * 1 := by unfold sliceLen; omega
    have h2 : ¬ sliceLen m a < lda * (n - 1) + n := by unfold sliceLen; omega
    simp only [one_ne_zero, if_false, hn, h0, h1, h2]
    have hrow : ∀ i, i < n → a + i * lda + n ≤ x := by
      intro i hi
      have := Nat.mul_le_mul_right lda (show i ≤ n - 1 by omega)
      rw [Nat.mul_comm (n - 1) lda] at this
      omega
    have key := forDown_inv (fun i (m : List R) => trmvRow Diag.NonUnit a lda x 1 i 0 i m)
      (fun i0 m' => m'.length = m.length ∧
        ∀ p, rd m' p = if x + i0 ≤ p ∧ p < x + n
          then ∑ j in Finset.range (p - x + 1), rd m (a + (p - x) * lda + j) * rd m (x + j)
          else rd m p)
      n m ⟨rfl, fun p => by rw [if_neg (by omega)]⟩ ?_
    · obtain ⟨m', h1, h2, h3⟩ := key
      refine ⟨m', h1, h2, fun p => ?_⟩
      rw [h3 p]
      by_cases hq : x ≤ p ∧ p < x + n
      · rw [if_pos hq, if_pos (by omega)]
      · rw [if_neg hq, if_neg (by omega)]
    · intro i t hi ⟨hlen, hrd⟩
      have hri := hrow i hi
      have hbx : x + i < t.length := by omega
      have hba : a + (i * lda + i) < t.length := by omega
      have hsame : ∀ q, q < x + i + 1 → rd t q = rd m q := by
        intro q hq
        rw [hrd, if_neg (by omega)]
      have hdot := dotAcc_spec t (a + i * lda + 0) (x + 0 * 1) i (by omega) (by omega)
      have hsum : (∑ j in Finset.range i, rd t (a + i * lda + 0 + j) * rd t (x + 0 * 1 + j))
          = ∑ j in Finset.range i, rd m (a + i * lda + j) * rd m (x + j) := by
        apply Finset.sum_congr rfl
        intro j hj
        have hj' : j < i := Finset.mem_range.mp hj
        rw [hsame _ (by omega), hsame _ (by omega)]
        simp
      rw [hsum] at hdot
      refine ⟨t.set (x + i) (rd m (a + (i * lda + i)) * rd m (x + i) +
        ∑ j in Finset.range i, rd m (a + i * lda + j) * rd m (x + j)), ?_, by simp [hlen],
        fun p => ?_⟩
      · unfold trmvRow
        simp only [Nat.mul_one, load_eq t x i hbx, load_eq t a (i * lda + i) hba, hdot,
          store_eq t x i _ hbx, Option.bind_eq_bind, Option.some_bind, Option.map_some']
        rw [hsame _ (by omega), hsame _ (by omega)]
      · rw [rd_set _ _ _ _ hbx]
        by_cases hp : p = x + i
        · subst hp
          rw [if_pos rfl, if_pos (by omega)]
          have e : x + i - x = i := by omega
          rw [e, Finset.sum_range_succ, add_comm, Nat.add_assoc]
        · rw [if_neg hp, hrd]
          by_cases hq : x + (i + 1) ≤ p ∧ p < x + n
          · rw [if_pos hq, if_pos (by omega)]
          · rw [if_neg hq, if_neg (by omega)]

end Blas

namespace Testlapack

open Blas

variable {R : Type} [CommRing R]

/-! ## Index arithmetic of the band layout -/

theorem idx_lt (ld i k d : Nat) (h : i < k) (hd : d < ld) : i * ld + d < k * ld := by
  have := mul_succ_le i k ld h
  omega

theorem idx_inj (ld i d i' d' : Nat) (hd : d < ld) (hd' : d' < ld)
    (h : i * ld + d = i' * ld + d') : i = i' ∧ d = d' := by
  rcases Nat.lt_trichotomy i i' with hlt | heq | hgt
  · have := idx_lt ld i i' d hlt hd
    omega
  · subst heq
    exact ⟨rfl, by omega⟩
  · have := idx_lt ld i' i d' hgt hd'
    omega

theorem tri_idx (ld k i j : Nat) (hld : 1 ≤ ld) (hij : i ≤ j) :
    (k + 1) * ld + i * (ld - 1) + j = (k + 1 + i) * ld + (j - i) := by
  obtain ⟨e, rfl⟩ : ∃ e, ld = e + 1 := ⟨ld - 1, by omega⟩
  obtain ⟨c, rfl⟩ : ∃ c, j = i + c := ⟨j - i, by omega⟩
  simp only [Nat.add_sub_cancel, Nat.add_sub_cancel_left]
  ring

theorem tri_idx_lower (ld r kd i j : Nat) (hld : 1 ≤ ld) (hji : j ≤ i) (hkd : i - j ≤ kd) :
    r * ld + kd + i * (ld - 1) + j = (r + i) * ld + (kd - (i - j)) := by
  obtain ⟨e, rfl⟩ : ∃ e, ld = e + 1 := ⟨ld - 1, by omega⟩
  obtain ⟨c, rfl⟩ : ∃ c, i = j + c := ⟨i - j, by omega⟩
  obtain ⟨b, rfl⟩ : ∃ b, kd = c + b := ⟨kd - c, by omega⟩
  simp only [Nat.add_sub_cancel, Nat.add_sub_cancel_left]
  ring

theorem sum_Icc_pop {M : Type} [AddCommMonoid M] (f : Nat → M) (k i : Nat) (h : k ≤ i) :
    ∑ l in Finset.Icc k i, f l = f k + ∑ l in Finset.Icc (k + 1) i, f l := by
  rw [← Nat.Icc_insert_succ_left h, Finset.sum_insert (by simp)]

/-! ## One iteration of the Upper loop -/

theorem upperStep_spec (n kd ldab k : Nat) (t : List R) (hk : k < n)
    (hld : kd + 1 ≤ ldab) (hlen : n * ldab ≤ t.length) :
    ∃ t', upperStep Implementation n kd ldab k t = some t' ∧ t'.length = t.length ∧
      ∀ i d, d < ldab → rd t' (i * ldab + d) =
        if i = k then
          (if d ≤ min kd (n - k - 1) then rd t (k * ldab + d) * rd t (k * ldab)
            else rd t (k * ldab + d))
        else if k < i ∧ i + d ≤ k + min kd (n - k - 1) then
          rd t (i * ldab + d) + rd t (k * ldab + (i + d - k)) * rd t (k * ldab + (i - k))
        else rd t (i * ldab + d) := by
  have hrowk := mul_succ_le k n ldab hk
  have hsucc : (k + 1) * ldab = k * ldab + ldab := Nat.succ_mul k ldab
  -- the rank-one update
  have hsyr : ∃ t1, (if min kd (n - k - 1) > 0 then do
        let x ← sliceFrom t 0 (k * ldab + 1)
        let a ← sliceFrom t 0 ((k + 1) * ldab)
        (Implementation : Float64 R).Dsyr Uplo.Upper (min kd (n - k - 1)) 1 x 1 a (ldab - 1) t
      else some t) = some t1 ∧ t1.length = t.length ∧
      (∀ i j, i ≤ j → j < min kd (n - k - 1) →
        rd t1 ((k + 1) * ldab + i * (ldab - 1) + j) =
          rd t ((k + 1) * ldab + i * (ldab - 1) + j) +
            rd t (k * ldab + 1 + j) * (rd t (k * ldab + 1 + i) * 1)) ∧
      (∀ p, (∀ i j, i ≤ j → j < min kd (n - k - 1) →
        p ≠ (k + 1) * ldab + i * (ldab - 1) + j) → rd t1 p = rd t p) := by
    by_cases hpos : min kd (n - k - 1) > 0
    · have hkl : k + min kd (n - k - 1) < n := by omega
      have h1 := mul_succ_le (k + min kd (n - k - 1)) n ldab hkl
      have h2 := tri_idx ldab k (min kd (n - k - 1) - 1) (min kd (n - k - 1) - 1)
        (by omega) (Nat.le_refl _)
      have h3 : k + 1 + (min kd (n - k - 1) - 1) = k + min kd (n - k - 1) := by omega
      rw [h3, Nat.mul_comm (min kd (n - k - 1) - 1) (ldab - 1)] at h2
      obtain ⟨t1, e1, e2, e3, e4⟩ := Dsyr_spec t (min kd (n - k - 1)) 1 (k * ldab + 1)
        ((k + 1) * ldab) (ldab - 1) (by omega) (by omega) (by omega)
      refine ⟨t1, ?_, e2, e3, e4⟩
      rw [if_pos hpos, sliceFrom_eq t 0 _ (by omega), sliceFrom_eq t 0 _ (by omega)]
      simpa [Implementation] using e1
    · refine ⟨t, by rw [if_neg hpos], rfl, fun i j _ hj => absurd hj (by omega), fun p _ => rfl⟩
  obtain ⟨t1, e1, e2, e3, e4⟩ := hsyr
  have hrow : ∀ d, d < ldab → rd t1 (k * ldab + d) = rd t (k * ldab + d) := by
    intro d hd
    apply e4
    intro i j hij _
    rw [tri_idx ldab k i j (by omega) hij]
    have := mul_succ_le k (k + 1 + i) ldab (by omega)
    omega
  obtain ⟨t', f1, f2, f3⟩ := Dscal_spec t1 (min kd (n - k - 1) + 1) (rd t (k * ldab))
    (k * ldab) (by omega)
  refine ⟨t', ?_, by omega, ?_⟩
  · unfold upperStep
    simp only [Option.bind_eq_bind] at e1 ⊢
    rw [e1]
    simp only [Option.some_bind]
    rw [load_eq t1 0 _ (by omega), sliceFrom_eq t1 0 _ (by omega)]
    simp only [Option.some_bind, Nat.zero_add]
    have := hrow 0 (by omega)
    simp only [Nat.add_zero] at this
    rw [this]
    simpa [Implementation] using f1
  · intro i d hd
    rw [f3]
    rcases Nat.lt_trichotomy i k with hlt | heq | hgt
    · have := idx_lt ldab i k d hlt hd
      rw [if_neg (by omega), if_neg (by omega), if_neg (by omega)]
      apply e4
      intro i' j hij _
      rw [tri_idx ldab k i' j (by omega) hij]
      have := mul_succ_le k (k + 1 + i') ldab (by omega)
      omega
    · subst heq
      rw [if_pos rfl, hrow d hd]
      by_cases hq : d ≤ min kd (n - i - 1)
      · rw [if_pos hq, if_pos (by omega)]
      · rw [if_neg hq, if_neg (by omega)]
    · have := mul_succ_le k i ldab hgt
      rw [if_neg (by omega), if_neg (by omega)]
      by_cases hq : k < i ∧ i + d ≤ k + min kd (n - k - 1)
      · rw [if_pos hq]
        have hidx := tri_idx ldab k (i - k - 1) (i - k - 1 + d) (by omega) (by omega)
        have h5 : k + 1 + (i - k - 1) = i := by omega
        have h6 : i - k - 1 + d - (i - k - 1) = d := by omega
        rw [h5, h6] at hidx
        have h7 := e3 (i - k - 1) (i - k - 1 + d) (by omega) (by omega)
        rw [hidx] at h7
        rw [h7, mul_one]
        have h8 : k * ldab + 1 + (i - k - 1 + d) = k * ldab + (i + d - k) := by omega
        have h9 : k * ldab + 1 + (i - k - 1) = k * ldab + (i - k) := by omega
        rw [h8, h9]
      · rw [if_neg hq]
        apply e4
        intro i' j hij hj heq
        rw [tri_idx ldab k i' j (by omega) hij] at heq
        obtain ⟨h10, h11⟩ := idx_inj ldab i d (k + 1 + i') (j - i') hd (by omega) heq
        omega

/-! ## The Upper loop -/

theorem upper_loop (n kd ldab : Nat) (ab : List R) (hld : kd + 1 ≤ ldab)
    (hlen : n * ldab ≤ ab.length) :
    ∃ out, dsbmm Uplo.Upper n kd ab ldab = some out ∧ out.length = ab.length ∧
      ∀ i d, d < ldab → rd out (i * ldab + d) =
        if i < n ∧ d ≤ kd ∧ i + d < n then
          ∑ l in Finset.Icc (i + d - kd) i, bandU ab ldab l i * bandU ab ldab l (i + d)
        else rd ab (i * ldab + d) := by
  have key := forDown_inv (upperStep (Implementation : Float64 R) n kd ldab)
    (fun k S => S.length = ab.length ∧
      ∀ i d, d < ldab → rd S (i * ldab + d) =
        if k ≤ i ∧ i < n ∧ d ≤ kd ∧ i + d < n then
          ∑ l in Finset.Icc (max k (i + d - kd)) i, bandU ab ldab l i * bandU ab ldab l (i + d)
        else rd ab (i * ldab + d))
    n ab ⟨rfl, fun i d _ => by rw [if_neg (by omega)]⟩ ?_
  · obtain ⟨out, h1, h2, h3⟩ := key
    refine ⟨out, h1, h2, fun i d hd => ?_⟩
    rw [h3 i d hd]
    by_cases hq : i < n ∧ d ≤ kd ∧ i + d < n
    · rw [if_pos hq, if_pos (by omega), Nat.zero_max]
    · rw [if_neg hq, if_neg (by omega)]
  · intro k t hk ⟨hlen', hrd⟩
    obtain ⟨t', e1, e2, e3⟩ := upperStep_spec n kd ldab k t hk hld (by omega)
    refine ⟨t', e1, by omega, fun i d hd => ?_⟩
    have hpr : ∀ d', d' < ldab → rd t (k * ldab + d') = rd ab (k * ldab + d') := by
      intro d' hd'
      rw [hrd k d' hd', if_neg (by omega)]
    rw [e3 i d hd]
    by_cases hik : i = k
    · subst hik
      rw [if_pos rfl]
      by_cases hq : d ≤ min kd (n - i - 1)
      · have hm : max i (i + d - kd) = i := by omega
        have h0 := hpr 0 (by omega)
        rw [Nat.add_zero] at h0
        rw [if_pos hq, if_pos (by omega), hm, Finset.Icc_self, Finset.sum_singleton,
          hpr d hd, h0]
        unfold bandU
        rw [Nat.sub_self, Nat.add_sub_cancel_left, Nat.add_zero, mul_comm]
      · rw [if_neg hq, if_neg (by omega), hpr d hd]
    · rw [if_neg hik]
      by_cases hq : k < i ∧ i + d ≤ k + min kd (n - k - 1)
      · have hm : max k (i + d - kd) = k := by omega
        have hm' : max (k + 1) (i + d - kd) = k + 1 := by omega
        rw [if_pos hq, if_pos (by omega), hm, sum_Icc_pop _ k i (by omega),
          hrd i d hd, if_pos (by omega), hm', hpr _ (by omega), hpr _ (by omega), add_comm]
        unfold bandU
        rw [mul_comm (rd ab (k * ldab + (i + d - k)))]
      · rw [if_neg hq, hrd i d hd]
        by_cases hq2 : k ≤ i ∧ i < n ∧ d ≤ kd ∧ i + d < n
        · have hm : max k (i + d - kd) = max (k + 1) (i + d - kd) := by omega
          rw [if_pos hq2, if_pos (by omega), hm]
        · rw [if_neg hq2, if_neg (by omega)]

/-! ## One iteration of the Lower loop -/

theorem lowerStep_spec (n kd ldab k : Nat) (t : List R) (hk : k < n)
    (hld : kd + 1 ≤ ldab) (hlen : n * ldab ≤ t.length) :
    ∃ t', lowerStep Implementation kd ldab k t = some t' ∧ t'.length = t.length ∧
      ∀ i d, d < ldab → rd t' (i * ldab + d) =
        if i = k ∧ kd - k ≤ d ∧ d ≤ kd then
          ∑ j in Finset.range (d - (kd - k) + 1),
            rd t ((k - (kd - d)) * ldab + (kd - (d - (kd - k) - j))) *
              rd t (k * ldab + (kd - k) + j)
        else rd t (i * ldab + d) := by
  have hrowk := mul_succ_le k n ldab hk
  have hx : k * ldab + (kd - k) + (kd - (kd - k) + 1) ≤ t.length := by omega
  have hdot := Ddot_spec t (kd - (kd - k) + 1) (k * ldab + (kd - k)) (k * ldab + (kd - k)) hx hx
  have hb : 0 + (k * ldab + kd) < t.length := by omega
  -- the triangular product
  have htrmv : ∀ t1 : List R, t1.length = t.length → ∃ t', (if kd - (kd - k) > 0 then do
        let a ← sliceFrom t1 0 ((k - (kd - (kd - k))) * ldab + kd)
        let x ← sliceFrom t1 0 (k * ldab + (kd - k))
        (Implementation : Float64 R).Dtrmv Uplo.Lower Transpose.NoTrans Diag.NonUnit
          (kd - (kd - k)) a (ldab - 1) x 1 t1
      else some t1) = some t' ∧ t'.length = t1.length ∧
      ∀ p, rd t' p = if k * ldab + (kd - k) ≤ p ∧ p < k * ldab + (kd - k) + (kd - (kd - k))
        then ∑ j in Finset.range (p - (k * ldab + (kd - k)) + 1),
          rd t1 ((k - (kd - (kd - k))) * ldab + kd + (p - (k * ldab + (kd - k))) * (ldab - 1) + j)
            * rd t1 (k * ldab + (kd - k) + j)
        else rd t1 p := by
    intro t1 hl1
    by_cases hpos : kd - (kd - k) > 0
    · have h2 := tri_idx_lower ldab (k - (kd - (kd - k))) kd (kd - (kd - k) - 1)
        (kd - (kd - k) - 1) (by omega) (Nat.le_refl _) (by omega)
      have h3 : k - (kd - (kd - k)) + (kd - (kd - k) - 1) = k - 1 := by omega
      have h4 := mul_succ_le (k - 1) k ldab (by omega)
      rw [h3, Nat.mul_comm (kd - (kd - k) - 1) (ldab - 1)] at h2
      obtain ⟨t', e1, e2, e3⟩ := Dtrmv_spec t1 (kd - (kd - k))
        ((k - (kd - (kd - k))) * ldab + kd) (ldab - 1) (k * ldab + (kd - k))
        (by omega) (by omega) (by omega)
      refine ⟨t', ?_, e2, e3⟩
      rw [if_pos hpos, sliceFrom_eq t1 0 _ (by omega), sliceFrom_eq t1 0 _ (by omega)]
      simpa [Implementation] using e1
    · refine ⟨t1, by rw [if_neg hpos], rfl, fun p => ?_⟩
      rw [if_neg (by omega)]
  obtain ⟨v, hv⟩ : ∃ v : R, v = ∑ j in Finset.range (kd - (kd - k) + 1),
      rd t (k * ldab + (kd - k) + j) * rd t (k * ldab + (kd - k) + j) := ⟨_, rfl⟩
  rw [← hv] at hdot
  obtain ⟨t', e1, e2, e3⟩ := htrmv (t.set (0 + (k * ldab + kd)) v) (by simp)
  have e2' : t'.length = t.length := by simpa using e2
  refine ⟨t', ?_, e2', ?_⟩
  · unfold lowerStep
    simp only [Option.bind_eq_bind, Nat.zero_max] at e1 ⊢
    rw [sliceFrom_eq t 0 _ (by omega)]
    simp only [Option.some_bind, Nat.zero_add] at e1 ⊢
    have hd' : (Implementation : Float64 R).Ddot (kd - (kd - k) + 1) (k * ldab + (kd - k)) 1
        (k * ldab + (kd - k)) 1 t = _ := hdot
    rw [hd', Option.some_bind, store_eq t 0 _ _ hb, Option.some_bind]
    simp only [Nat.zero_add]
    exact e1
  · intro i d hd
    rw [e3]
    simp only [Nat.zero_add] at hb ⊢
    have hset : ∀ p, p ≠ k * ldab + kd → rd (t.set (k * ldab + kd) v) p = rd t p := by
      intro p hp
      rw [rd_set _ _ _ _ hb, if_neg hp]
    have hset' : rd (t.set (k * ldab + kd) v) (k * ldab + kd) = v := by
      rw [rd_set _ _ _ _ hb, if_pos rfl]
    rcases Nat.lt_trichotomy i k with hlt | heq | hgt
    · have := idx_lt ldab i k d hlt hd
      rw [if_neg (by omega), if_neg (by omega), hset _ (by omega)]
    · subst heq
      by_cases hq : kd - i ≤ d ∧ d ≤ kd
      · rw [if_pos (show i = i ∧ kd - i ≤ d ∧ d ≤ kd from ⟨rfl, hq⟩)]
        by_cases hdk : d = kd
        · rw [if_neg (by omega), hdk, hset', hv]
          apply Finset.sum_congr rfl
          intro j hj
          have hj' := Finset.mem_range.mp hj
          have ea : i - (kd - kd) = i := by omega
          have eb : kd - (kd - (kd - i) - j) = kd - i + j := by omega
          rw [ea, eb, Nat.add_assoc]
        · rw [if_pos (by omega)]
          have ec : i * ldab + d - (i * ldab + (kd - i)) = d - (kd - i) := by omega
          rw [ec]
          apply Finset.sum_congr rfl
          intro j hj
          have hj' := Finset.mem_range.mp hj
          have hidx := tri_idx_lower ldab (i - (kd - (kd - i))) kd (d - (kd - i)) j
            (by omega) (by omega) (by omega)
          have hr : i - (kd - (kd - i)) + (d - (kd - i)) = i - (kd - d) := by omega
          rw [hr] at hidx
          have := mul_succ_le (i - (kd - d)) i ldab (by omega)
          rw [hidx, hset _ (by omega), hset _ (by omega)]
      · have hq' : ¬ (i = i ∧ kd - i ≤ d ∧ d ≤ kd) := fun h => hq h.2
        rw [if_neg hq', if_neg (by omega), hset _ (by omega)]
    · have := mul_succ_le k i ldab hgt
      rw [if_neg (by omega), if_neg (by omega), hset _ (by omega)]

/-! ## The Lower loop -/

theorem lower_loop (n kd ldab : Nat) (ab : List R) (hld : kd + 1 ≤ ldab)
    (hlen : n * ldab ≤ ab.length) :
    ∃ out, dsbmm Uplo.Lower n kd ab ldab = some out ∧ out.length = ab.length ∧
      ∀ i d, d < ldab → rd out (i * ldab + d) =
        if i < n ∧ kd - i ≤ d ∧ d ≤ kd then
          ∑ l in Finset.Icc (i - kd) (i - (kd - d)),
            bandL ab ldab kd i l * bandL ab ldab kd (i - (kd - d)) l
        else rd ab (i * ldab + d) := by
  have key := forDown_inv (lowerStep (Implementation : Float64 R) kd ldab)
    (fun k S => S.length = ab.length ∧
      ∀ i d, d < ldab → rd S (i * ldab + d) =
        if k ≤ i ∧ i < n ∧ kd - i ≤ d ∧ d ≤ kd then
          ∑ l in Finset.Icc (i - kd) (i - (kd - d)),
            bandL ab ldab kd i l * bandL ab ldab kd (i - (kd - d)) l
        else rd ab (i * ldab + d))
    n ab ⟨rfl, fun i d _ => by rw [if_neg (by omega)]⟩ ?_
  · obtain ⟨out, h1, h2, h3⟩ := key
    refine ⟨out, h1, h2, fun i d hd => ?_⟩
    rw [h3 i d hd]
    by_cases hq : i < n ∧ kd - i ≤ d ∧ d ≤ kd
    · rw [if_pos hq, if_pos (by omega)]
    · rw [if_neg hq, if_neg (by omega)]
  · intro k t hk ⟨hlen', hrd⟩
    obtain ⟨t', e1, e2, e3⟩ := lowerStep_spec n kd ldab k t hk hld (by omega)
    refine ⟨t', e1, by omega, fun i d hd => ?_⟩
    have hpr : ∀ i' d', i' ≤ k → d' < ldab → rd t (i' * ldab + d') = rd ab (i' * ldab + d') := by
      intro i' d' hi' hd'
      rw [hrd i' d' hd', if_neg (by omega)]
    rw [e3 i d hd]
    by_cases hq : i = k ∧ kd - k ≤ d ∧ d ≤ kd
    · obtain ⟨hik, hq1, hq2⟩ := hq
      subst hik
      rw [if_pos ⟨rfl, hq1, hq2⟩, if_pos (by omega), ← Nat.Ico_succ_right,
        Finset.sum_Ico_eq_sum_range]
      have hc : (i - (kd - d)).succ - (i - kd) = d - (kd - i) + 1 := by omega
      rw [hc]
      apply Finset.sum_congr rfl
      intro j hj
      have hj' := Finset.mem_range.mp hj
      have h1 := hpr i (kd - i + j) (Nat.le_refl _) (by omega)
      rw [← Nat.add_assoc] at h1
      rw [hpr _ _ (by omega) (by omega), h1, mul_comm]
      unfold bandL
      have ea : i * ldab + kd - (i - (i - kd + j)) = i * ldab + (kd - i) + j := by omega
      have eb : (i - (kd - d)) * ldab + kd - (i - (kd - d) - (i - kd + j)) =
          (i - (kd - d)) * ldab + (kd - (d - (kd - i) - j)) := by omega
      rw [ea, eb]
    · rw [if_neg hq, hrd i d hd]
      by_cases hq2 : k ≤ i ∧ i < n ∧ kd - i ≤ d ∧ d ≤ kd
      · rw [if_pos hq2, if_pos (by omega)]
      · rw [if_neg hq2, if_neg (by omega)]

/-! ## Algebra of triangular factors -/

theorem quad_expand {R : Type} [CommRing R] (n : Nat) (M : Nat → Nat → R) (x : Nat → R) :
    ∑ i in Finset.range n, ∑ j in Finset.range n,
        x i * (∑ l in Finset.range n, M l i * M l j) * x j =
      ∑ l in Finset.range n,
        (∑ i in Finset.range n, M l i * x i) * (∑ i in Finset.range n, M l i * x i) := by
  have hL : ∀ i j, x i * (∑ l in Finset.range n, M l i * M l j) * x j =
      ∑ l in Finset.range n, (M l i * x i) * (M l j * x j) := by
    intro i j
    rw [Finset.mul_sum, Finset.sum_mul]
    apply Finset.sum_congr rfl
    intro l _
    ring
  simp only [hL]
  have hswap : ∀ i, ∑ j in Finset.range n, ∑ l in Finset.range n, (M l i * x i) * (M l j * x j) =
      ∑ l in Finset.range n, ∑ j in Finset.range n, (M l i * x i) * (M l j * x j) :=
    fun i => Finset.sum_comm
  simp only [hswap]
  rw [Finset.sum_comm]
  apply Finset.sum_congr rfl
  intro l _
  rw [Finset.sum_mul_sum]

theorem sum_sq_pos {R : Type} [LinearOrderedCommRing R] (n : Nat) (M : Nat → Nat → R)
    (hM0 : ∀ l i, i < l → M l i = 0) (hMd : ∀ l, l < n → 0 < M l l)
    (x : Nat → R) (hx : ∃ i, i < n ∧ x i ≠ 0) :
    0 < ∑ l in Finset.range n,
      (∑ i in Finset.range n, M l i * x i) * (∑ i in Finset.range n, M l i * x i) := by
  classical
  obtain ⟨i0, hi0, hxi0⟩ := hx
  have hk1 : x (Nat.findGreatest (fun i => x i ≠ 0) (n - 1)) ≠ 0 :=
    Nat.findGreatest_spec (P := fun i => x i ≠ 0) (show i0 ≤ n - 1 by omega) hxi0
  have hk2 : Nat.findGreatest (fun i => x i ≠ 0) (n - 1) ≤ n - 1 := Nat.findGreatest_le _
  have hk3 : ∀ j, Nat.findGreatest (fun i => x i ≠ 0) (n - 1) < j → j < n → x j = 0 := by
    intro j hj hjn
    have := Nat.findGreatest_is_greatest (P := fun i => x i ≠ 0) hj (show j ≤ n - 1 by omega)
    simpa using this
  generalize Nat.findGreatest (fun i => x i ≠ 0) (n - 1) = k at hk1 hk2 hk3
  have hkn : k < n := by omega
  have hrow : ∑ i in Finset.range n, M k i * x i = M k k * x k := by
    apply Finset.sum_eq_single k
    · intro j hj hjk
      rcases Nat.lt_or_gt_of_ne hjk with h | h
      · rw [hM0 k j h, zero_mul]
      · rw [hk3 j h (Finset.mem_range.mp hj), mul_zero]
    · intro h
      exact absurd (Finset.mem_range.mpr hkn) h
  apply Finset.sum_pos'
  · intro l _
    exact mul_self_nonneg _
  · refine ⟨k, Finset.mem_range.mpr hkn, ?_⟩
    rw [hrow]
    exact mul_self_pos.mpr (mul_ne_zero (ne_of_gt (hMd k hkn)) hk1)

theorem mask_sum {R : Type} [CommRing R] (n kd i j : Nat) (f g : Nat → R) (hij : i ≤ j)
    (hj : j < n) :
    ∑ l in Finset.range n, (if l ≤ i ∧ i - l ≤ kd then f l else 0) *
        (if l ≤ j ∧ j - l ≤ kd then g l else 0) =
      ∑ l in Finset.Icc (j - kd) i, f l * g l := by
  have hsub : Finset.Icc (j - kd) i ⊆ Finset.range n := by
    intro l hl
    rw [Finset.mem_Icc] at hl
    exact Finset.mem_range.mpr (by omega)
  rw [← Finset.sum_subset hsub]
  · apply Finset.sum_congr rfl
    intro l hl
    rw [Finset.mem_Icc] at hl
    rw [if_pos (by omega), if_pos (by omega)]
  · intro l _ hl
    rw [Finset.mem_Icc] at hl
    by_cases h1 : l ≤ i
    · rw [if_neg (show ¬ (l ≤ j ∧ j - l ≤ kd) by omega), mul_zero]
    · rw [if_neg (show ¬ (l ≤ i ∧ i - l ≤ kd) by omega), zero_mul]

theorem chol_unique {R : Type} [LinearOrderedCommRing R] (n kd : Nat) (F G : Nat → Nat → R)
    (hF : ∀ i, i < n → 0 < F i i) (hG : ∀ i, i < n → 0 < G i i)
    (h : ∀ i c, i < n → c ≤ i → i - c ≤ kd →
      ∑ l in Finset.Icc (i - kd) c, F i l * F c l = ∑ l in Finset.Icc (i - kd) c, G i l * G c l) :
    ∀ i c, i < n → c ≤ i → i - c ≤ kd → F i c = G i c := by
  intro i
  induction i using Nat.strong_induction_on with
  | _ i ih =>
    intro c
    induction c using Nat.strong_induction_on with
    | _ c ih2 =>
      intro hi hc hkd
      have hmem : c ∈ Finset.Icc (i - kd) c := Finset.mem_Icc.mpr ⟨by omega, Nat.le_refl _⟩
      have hsum := h i c hi hc hkd
      rw [← Finset.add_sum_erase _ _ hmem, ← Finset.add_sum_erase _ _ hmem] at hsum
      have hrest : ∑ l in (Finset.Icc (i - kd) c).erase c, F i l * F c l =
          ∑ l in (Finset.Icc (i - kd) c).erase c, G i l * G c l := by
        apply Finset.sum_congr rfl
        intro l hl
        rw [Finset.mem_erase, Finset.mem_Icc] at hl
        have hlc : l < c := by omega
        rw [ih2 l hlc hi (by omega) (by omega)]
        rcases Nat.lt_or_ge c i with hci | hci
        · rw [ih c hci l (by omega) (by omega) (by omega)]
        · have : c = i := by omega
          subst this
          rw [ih2 l hlc hi (by omega) (by omega)]
      rw [hrest] at hsum
      have hprod : F i c * F c c = G i c * G c c := add_right_cancel hsum
      rcases Nat.lt_or_ge c i with hci | hci
      · have hcc : F c c = G c c := ih c hci c (by omega) (Nat.le_refl _) (by omega)
        rw [hcc] at hprod
        exact mul_right_cancel₀ (ne_of_gt (hG c (by omega))) hprod
      · have : c = i := by omega
        subst this
        exact (mul_self_inj (le_of_lt (hF c hi)) (le_of_lt (hG c hi))).mp hprod

/-! ## The reconstructed matrix as a product of masked factors -/

theorem symBand_upper {R : Type} [CommRing R] (n kd ldab : Nat) (ab out : List R)
    (hld : kd + 1 ≤ ldab)
    (hout : ∀ i d, d < ldab → rd out (i * ldab + d) =
        if i < n ∧ d ≤ kd ∧ i + d < n then
          ∑ l in Finset.Icc (i + d - kd) i, bandU ab ldab l i * bandU ab ldab l (i + d)
        else rd ab (i * ldab + d))
    (i j : Nat) (hi : i < n) (hj : j < n) :
    symBand Uplo.Upper kd ldab out i j =
      ∑ l in Finset.range n,
        (if l ≤ i ∧ i - l ≤ kd then bandU ab ldab l i else 0) *
          (if l ≤ j ∧ j - l ≤ kd then bandU ab ldab l j else 0) := by
  have main : ∀ a b, a ≤ b → b < n →
      (if b - a ≤ kd then rd out (a * ldab + (b - a)) else 0) =
        ∑ l in Finset.range n,
          (if l ≤ a ∧ a - l ≤ kd then bandU ab ldab l a else 0) *
            (if l ≤ b ∧ b - l ≤ kd then bandU ab ldab l b else 0) := by
    intro a b hab hb
    rw [mask_sum n kd a b _ _ hab hb]
    by_cases hband : b - a ≤ kd
    · rw [if_pos hband, hout a (b - a) (by omega), if_pos (by omega)]
      have e1 : a + (b - a) = b := by omega
      rw [e1]
    · rw [if_neg hband, Finset.Icc_eq_empty (by omega), Finset.sum_empty]
  unfold symBand
  rcases Nat.le_total i j with h | h
  · rw [min_eq_left h, max_eq_right h]
    exact main i j h hj
  · rw [min_eq_right h, max_eq_left h]
    simp only []
    rw [main j i h hi]
    apply Finset.sum_congr rfl
    intro l _
    rw [mul_comm]

theorem symBand_lower {R : Type} [CommRing R] (n kd ldab : Nat) (ab out : List R)
    (hld : kd + 1 ≤ ldab)
    (hout : ∀ i d, d < ldab → rd out (i * ldab + d) =
        if i < n ∧ kd - i ≤ d ∧ d ≤ kd then
          ∑ l in Finset.Icc (i - kd) (i - (kd - d)),
            bandL ab ldab kd i l * bandL ab ldab kd (i - (kd - d)) l
        else rd ab (i * ldab + d))
    (i j : Nat) (hi : i < n) (hj : j < n) :
    symBand Uplo.Lower kd ldab out i j =
      ∑ l in Finset.range n,
        (if l ≤ i ∧ i - l ≤ kd then bandL ab ldab kd i l else 0) *
          (if l ≤ j ∧ j - l ≤ kd then bandL ab ldab kd j l else 0) := by
  have main : ∀ a b, a ≤ b → b < n →
      (if b - a ≤ kd then rd out (b * ldab + kd - (b - a)) else 0) =
        ∑ l in Finset.range n,
          (if l ≤ a ∧ a - l ≤ kd then bandL ab ldab kd a l else 0) *
            (if l ≤ b ∧ b - l ≤ kd then bandL ab ldab kd b l else 0) := by
    intro a b hab hb
    rw [mask_sum n kd a b _ _ hab hb]
    by_cases hband : b - a ≤ kd
    · have e0 : b * ldab + kd - (b - a) = b * ldab + (kd - (b - a)) := by omega
      rw [if_pos hband, e0, hout b (kd - (b - a)) (by omega), if_pos (by omega)]
      have e1 : b - (kd - (kd - (b - a))) = a := by omega
      rw [e1]
      apply Finset.sum_congr rfl
      intro l _
      rw [mul_comm]
    · rw [if_neg hband, Finset.Icc_eq_empty (by omega), Finset.sum_empty]
  unfold symBand
  rcases Nat.le_total i j with h | h
  · rw [min_eq_left h, max_eq_right h]
    exact main i j h hj
  · rw [min_eq_right h, max_eq_left h]
    simp only []
    rw [main j i h hi]
    apply Finset.sum_congr rfl
    intro l _
    rw [mul_comm]

/-! ## The claims -/

/-- C1: `dsbmm` with `uplo = Upper` computes `Uᵀ*U` in band storage. For
`ldab ≥ kd+1` and a buffer of length at least `n*ldab` the call returns, and with
`U[r,c] = ab[r*ldab + (c-r)]` read from the input buffer, every row `i < n` and
offset `d ≤ min(kd, n-1-i)` of the output holds
`Σ_{l = max(0, i+d-kd)}^{i} U[l,i] * U[l,i+d]` (the natural subtraction
`i + d - kd` is truncated at zero). -/
theorem dsbmm_upper_product {R : Type} [CommRing R] (n kd ldab : Nat) (ab : List R)
    (hld : kd + 1 ≤ ldab) (hlen : n * ldab ≤ ab.length) :
    ∃ out, dsbmm Uplo.Upper n kd ab ldab = some out ∧
      ∀ i d, i < n → d ≤ min kd (n - 1 - i) →
        rd out (i * ldab + d) =
          ∑ l in Finset.Icc (i + d - kd) i, bandU ab ldab l i * bandU ab ldab l (i + d) := by
  obtain ⟨out, h1, _, h3⟩ := upper_loop n kd ldab ab hld hlen
  refine ⟨out, h1, fun i d hi hd => ?_⟩
  rw [h3 i d (by omega), if_pos (by omega)]

/-- Instance of C1 for a 3×3 factor with one super-diagonal. -/
theorem dsbmm_upper_product_witness :
    (1 + 1 ≤ 2 ∧ 3 * 2 ≤ ([2, 1, 3, 5, 7, 100] : List ℤ).length) ∧
      ∃ out, dsbmm Uplo.Upper 3 1 ([2, 1, 3, 5, 7, 100] : List ℤ) 2 = some out ∧
        ∀ i d, i < 3 → d ≤ min 1 (3 - 1 - i) →
          rd out (i * 2 + d) =
            ∑ l in Finset.Icc (i + d - 1) i,
              bandU ([2, 1, 3, 5, 7, 100] : List ℤ) 2 l i *
                bandU ([2, 1, 3, 5, 7, 100] : List ℤ) 2 l (i + d) :=
  ⟨⟨by decide, by decide⟩,
    dsbmm_upper_product 3 1 2 [2, 1, 3, 5, 7, 100] (by decide) (by decide)⟩

/-- C2: `dsbmm` with `uplo = Lower` computes `L*Lᵀ` in band storage. For
`ldab ≥ kd+1` and a buffer of length at least `n*ldab` the call returns, and with
`L[r,c] = ab[r*ldab + kd - (r-c)]` read from the input buffer, every row `i < n`
and `d ≤ min(kd, i)` of the output satisfies
`ab'[i*ldab + kd - d] = Σ_{l = max(0, i-kd)}^{i-d} L[i,l] * L[i-d,l]`. -/
theorem dsbmm_lower_product {R : Type} [CommRing R] (n kd ldab : Nat) (ab : List R)
    (hld : kd + 1 ≤ ldab) (hlen : n * ldab ≤ ab.length) :
    ∃ out, dsbmm Uplo.Lower n kd ab ldab = some out ∧
      ∀ i d, i < n → d ≤ min kd i →
        rd out (i * ldab + kd - d) =
          ∑ l in Finset.Icc (i - kd) (i - d),
            bandL ab ldab kd i l * bandL ab ldab kd (i - d) l := by
  obtain ⟨out, h1, _, h3⟩ := lower_loop n kd ldab ab hld hlen
  refine ⟨out, h1, fun i d hi hd => ?_⟩
  have e0 : i * ldab + kd - d = i * ldab + (kd - d) := by omega
  have e1 : kd - (kd - d) = d := by omega
  rw [e0, h3 i (kd - d) (by omega), if_pos (by omega), e1]

/-- Instance of C2 for a 3×3 factor with one sub-diagonal. -/
theorem dsbmm_lower_product_witness :
    (1 + 1 ≤ 2 ∧ 3 * 2 ≤ ([100, 2, 1, 3, 5, 7] : List ℤ).length) ∧
      ∃ out, dsbmm Uplo.Lower 3 1 ([100, 2, 1, 3, 5, 7] : List ℤ) 2 = some out ∧
        ∀ i d, i < 3 → d ≤ min 1 i →
          rd out (i * 2 + 1 - d) =
            ∑ l in Finset.Icc (i - 1) (i - d),
              bandL ([100, 2, 1, 3, 5, 7] : List ℤ) 2 1 i l *
                bandL ([100, 2, 1, 3, 5, 7] : List ℤ) 2 1 (i - d) l :=
  ⟨⟨by decide, by decide⟩,
    dsbmm_lower_product 3 1 2 [100, 2, 1, 3, 5, 7] (by decide) (by decide)⟩

/-- C3 (amended): in exact arithmetic the matrix `dsbmm` produces from a
positive-diagonal buffer is positive definite. For either `uplo`,
`ldab ≥ kd+1`, a buffer of length at least `n*ldab` over a linearly ordered
commutative ring (the reals included) whose stored diagonal entries (offset `0`
for Upper, offset `kd` for Lower) are strictly positive, the call returns and
the symmetric matrix `A` represented by the output satisfies `xᵀ*A*x > 0` for
every vector `x` with a non-zero component among the first `n`. -/
theorem dsbmm_positive_definite {R : Type} [LinearOrderedCommRing R] (uplo : Uplo)
    (n kd ldab : Nat) (ab : List R) (hld : kd + 1 ≤ ldab) (hlen : n * ldab ≤ ab.length)
    (hdiag : ∀ i, i < n → 0 < rd ab (i * ldab + diagOffset uplo kd)) :
    ∃ out, dsbmm uplo n kd ab ldab = some out ∧
      ∀ x : Nat → R, (∃ i, i < n ∧ x i ≠ 0) →
        0 < quadForm n (symBand uplo kd ldab out) x := by
  cases uplo with
  | Upper =>
    obtain ⟨out, h1, _, h3⟩ := upper_loop n kd ldab ab hld hlen
    refine ⟨out, h1, fun x hx => ?_⟩
    have hq : quadForm n (symBand Uplo.Upper kd ldab out) x =
        ∑ i in Finset.range n, ∑ j in Finset.range n,
          x i * (∑ l in Finset.range n,
            (fun l c => if l ≤ c ∧ c - l ≤ kd then bandU ab ldab l c else 0) l i *
              (fun l c => if l ≤ c ∧ c - l ≤ kd then bandU ab ldab l c else 0) l j) * x j := by
      unfold quadForm
      apply Finset.sum_congr rfl
      intro i hi
      apply Finset.sum_congr rfl
      intro j hj
      rw [symBand_upper n kd ldab ab out hld h3 i j (Finset.mem_range.mp hi)
        (Finset.mem_range.mp hj)]
    rw [hq, quad_expand]
    apply sum_sq_pos n _ _ _ x hx
    · intro l i hil
      rw [if_neg (by omega)]
    · intro l hl
      rw [if_pos (by omega)]
      have := hdiag l hl
      simpa [bandU, diagOffset] using this
  | Lower =>
    obtain ⟨out, h1, _, h3⟩ := lower_loop n kd ldab ab hld hlen
    refine ⟨out, h1, fun x hx => ?_⟩
    have hq : quadForm n (symBand Uplo.Lower kd ldab out) x =
        ∑ i in Finset.range n, ∑ j in Finset.range n,
          x i * (∑ l in Finset.range n,
            (fun l c => if l ≤ c ∧ c - l ≤ kd then bandL ab ldab kd c l else 0) l i *
              (fun l c => if l ≤ c ∧ c - l ≤ kd then bandL ab ldab kd c l else 0) l j) * x j := by
      unfold quadForm
      apply Finset.sum_congr rfl
      intro i hi
      apply Finset.sum_congr rfl
      intro j hj
      rw [symBand_lower n kd ldab ab out hld h3 i j (Finset.mem_range.mp hi)
        (Finset.mem_range.mp hj)]
    rw [hq, quad_expand]
    apply sum_sq_pos n _ _ _ x hx
    · intro l i hil
      rw [if_neg (by omega)]
    · intro l hl
      rw [if_pos (by omega)]
      have := hdiag l hl
      simpa [bandL, diagOffset] using this

/-- Instance of the amended C3 for a 3×3 upper factor with diagonal `2, 3, 7`. -/
theorem dsbmm_positive_definite_witness :
    (1 + 1 ≤ 2 ∧ 3 * 2 ≤ ([2, -1, 3, 5, 7, 100] : List ℤ).length ∧
      ∀ i, i < 3 → 0 < rd ([2, -1, 3, 5, 7, 100] : List ℤ) (i * 2 + diagOffset Uplo.Upper 1)) ∧
      ∃ out, dsbmm Uplo.Upper 3 1 ([2, -1, 3, 5, 7, 100] : List ℤ) 2 = some out ∧
        ∀ x : Nat → ℤ, (∃ i, i < 3 ∧ x i ≠ 0) →
          0 < quadForm 3 (symBand Uplo.Upper 1 2 out) x :=
  ⟨⟨by decide, by decide, by decide⟩,
    dsbmm_positive_definite Uplo.Upper 3 1 2 [2, -1, 3, 5, 7, 100] (by decide) (by decide)
      (by decide)⟩

/-- C5: `dsbmm` is injective on positive-diagonal factors. For either `uplo`,
`ldab ≥ kd+1` and two buffers `F`, `G` of length at least `n*ldab` over an
ordered ring whose stored diagonal entries are strictly positive, both calls
return, and if the two outputs agree on every stored band position then `F` and
`G` agree on every stored band position. -/
theorem dsbmm_factor_unique {R : Type} [LinearOrderedCommRing R] (uplo : Uplo)
    (n kd ldab : Nat) (F G : List R) (hld : kd + 1 ≤ ldab)
    (hF : n * ldab ≤ F.length) (hG : n * ldab ≤ G.length)
    (hdF : ∀ i, i < n → 0 < rd F (i * ldab + diagOffset uplo kd))
    (hdG : ∀ i, i < n → 0 < rd G (i * ldab + diagOffset uplo kd)) :
    ∃ oF oG, dsbmm uplo n kd F ldab = some oF ∧ dsbmm uplo n kd G ldab = some oG ∧
      ((∀ i j, stored uplo n kd i j → rd oF (i * ldab + j) = rd oG (i * ldab + j)) →
        ∀ i j, stored uplo n kd i j → rd F (i * ldab + j) = rd G (i * ldab + j)) := by
  cases uplo with
  | Upper =>
    obtain ⟨oF, f1, _, f3⟩ := upper_loop n kd ldab F hld hF
    obtain ⟨oG, g1, _, g3⟩ := upper_loop n kd ldab G hld hG
    refine ⟨oF, oG, f1, g1, fun hagree i j hs => ?_⟩
    simp only [stored] at hs hagree
    have key := chol_unique n kd (fun r c => bandU F ldab c r) (fun r c => bandU G ldab c r)
      (fun i hi => by simpa [bandU, diagOffset] using hdF i hi)
      (fun i hi => by simpa [bandU, diagOffset] using hdG i hi) ?_ (i + j) i
      (by omega) (by omega) (by omega)
    · simpa [bandU] using key
    · intro r c hr hc hkd
      have e1 : c + (r - c) = r := by omega
      have hFo := f3 c (r - c) (by omega)
      have hGo := g3 c (r - c) (by omega)
      rw [if_pos (by omega), e1] at hFo hGo
      have hag := hagree c (r - c) (by omega)
      rw [hFo, hGo] at hag
      simp only []
      rw [Finset.sum_congr rfl (fun l _ => mul_comm (bandU F ldab l r) (bandU F ldab l c)),
        Finset.sum_congr rfl (fun l _ => mul_comm (bandU G ldab l r) (bandU G ldab l c))]
      exact hag
  | Lower =>
    obtain ⟨oF, f1, _, f3⟩ := lower_loop n kd ldab F hld hF
    obtain ⟨oG, g1, _, g3⟩ := lower_loop n kd ldab G hld hG
    refine ⟨oF, oG, f1, g1, fun hagree i j hs => ?_⟩
    simp only [stored] at hs hagree
    have key := chol_unique n kd (fun r c => bandL F ldab kd r c) (fun r c => bandL G ldab kd r c)
      (fun i hi => by simpa [bandL, diagOffset] using hdF i hi)
      (fun i hi => by simpa [bandL, diagOffset] using hdG i hi) ?_ i (i - (kd - j))
      (by omega) (by omega) (by omega)
    · have e1 : i * ldab + kd - (i - (i - (kd - j))) = i * ldab + j := by omega
      simp only [bandL] at key
      rw [e1] at key
      exact key
    · intro r c hr hc hkd
      have e1 : r - (kd - (kd - (r - c))) = c := by omega
      have hFo := f3 r (kd - (r - c)) (by omega)
      have hGo := g3 r (kd - (r - c)) (by omega)
      rw [if_pos (by omega), e1] at hFo hGo
      have hag := hagree r (kd - (r - c)) (by omega)
      rw [hFo, hGo] at hag
      exact hag

/-- Instance of C5 for two 2×2 upper factors that differ only in an unstored position. -/
theorem dsbmm_factor_unique_witness :
    (1 + 1 ≤ 2 ∧ 2 * 2 ≤ ([2, 5, 3, 8] : List ℤ).length ∧
      2 * 2 ≤ ([2, 5, 3, 9] : List ℤ).length ∧
      (∀ i, i < 2 → 0 < rd ([2, 5, 3, 8] : List ℤ) (i * 2 + diagOffset Uplo.Upper 1)) ∧
      (∀ i, i < 2 → 0 < rd ([2, 5, 3, 9] : List ℤ) (i * 2 + diagOffset Uplo.Upper 1))) ∧
      ∃ oF oG, dsbmm Uplo.Upper 2 1 ([2, 5, 3, 8] : List ℤ) 2 = some oF ∧
        dsbmm Uplo.Upper 2 1 ([2, 5, 3, 9] : List ℤ) 2 = some oG ∧
        ((∀ i j, stored Uplo.Upper 2 1 i j → rd oF (i * 2 + j) = rd oG (i * 2 + j)) →
          ∀ i j, stored Uplo.Upper 2 1 i j →
            rd ([2, 5, 3, 8] : List ℤ) (i * 2 + j) = rd ([2, 5, 3, 9] : List ℤ) (i * 2 + j)) :=
  ⟨⟨by decide, by decide, by decide, by decide, by decide⟩,
    dsbmm_factor_unique Uplo.Upper 2 1 2 [2, 5, 3, 8] [2, 5, 3, 9] (by decide) (by decide)
      (by decide) (by decide) (by decide)⟩

/-- C6: `dsbmm` is total. For every `uplo`, `n`, `kd` (including `kd ≥ n`),
`ldab ≥ kd+1` and buffer of length at least `n*ldab` the call returns a buffer
of the same length: no slice expression, element access or BLAS argument check
of `dsbmm` and of the `Dsyr`, `Dscal`, `Ddot`, `Dtrmv` steps it invokes fails. -/
theorem dsbmm_total {R : Type} [CommRing R] (uplo : Uplo) (n kd ldab : Nat) (ab : List R)
    (hld : kd + 1 ≤ ldab) (hlen : n * ldab ≤ ab.length) :
    ∃ out, dsbmm uplo n kd ab ldab = some out ∧ out.length = ab.length := by
  cases uplo with
  | Upper =>
    obtain ⟨out, h1, h2, _⟩ := upper_loop n kd ldab ab hld hlen
    exact ⟨out, h1, h2⟩
  | Lower =>
    obtain ⟨out, h1, h2, _⟩ := lower_loop n kd ldab ab hld hlen
    exact ⟨out, h1, h2⟩

/-- Instance of C6 for a 3×3 lower factor with two sub-diagonals. -/
theorem dsbmm_total_witness :
    (2 + 1 ≤ 3 ∧ 3 * 3 ≤ ([0, 0, 2, 0, 1, 3, 1, 5, 7] : List ℤ).length) ∧
      ∃ out, dsbmm Uplo.Lower 3 2 ([0, 0, 2, 0, 1, 3, 1, 5, 7] : List ℤ) 3 = some out ∧
        out.length = ([0, 0, 2, 0, 1, 3, 1, 5, 7] : List ℤ).length :=
  ⟨⟨by decide, by decide⟩,
    dsbmm_total Uplo.Lower 3 2 3 [0, 0, 2, 0, 1, 3, 1, 5, 7] (by decide) (by decide)⟩

/-- C7 (counterexample): with `n = 1` and `kd = 1 ≥ n` the call
`dsbmm(Upper, 1, 1, [2, 7], 2)` completes normally and overwrites the buffer
with `[4, 7]`; no invalid-dimension condition is signalled. -/
theorem dsbmm_kd_ge_n_not_rejected :
    0 < 1 ∧ 1 ≤ 1 ∧ dsbmm Uplo.Upper 1 1 ([2, 7] : List ℤ) 2 = some [4, 7] ∧
      dsbmm Uplo.Upper 1 1 ([2, 7] : List ℤ) 2 ≠ none ∧ ([4, 7] : List ℤ) ≠ [2, 7] := by
  decide

/-- C7 (amended): `dsbmm` does not validate `kd` against `n`. For every `uplo`,
`n > 0` and `kd ≥ n`, with `ldab ≥ kd+1` and a buffer of length at least
`n*ldab`, the call completes normally and returns a buffer of the same length. -/
theorem dsbmm_kd_ge_n_completes {R : Type} [CommRing R] (uplo : Uplo) (n kd ldab : Nat)
    (ab : List R) (_hn : 0 < n) (_hkd : n ≤ kd) (hld : kd + 1 ≤ ldab)
    (hlen : n * ldab ≤ ab.length) :
    ∃ out, dsbmm uplo n kd ab ldab = some out ∧ out.length = ab.length := by
  cases uplo with
  | Upper =>
    obtain ⟨out, h1, h2, _⟩ := upper_loop n kd ldab ab hld hlen
    exact ⟨out, h1, h2⟩
  | Lower =>
    obtain ⟨out, h1, h2, _⟩ := lower_loop n kd ldab ab hld hlen
    exact ⟨out, h1, h2⟩

/-- Instance of the amended C7 for `n = 2`, `kd = 3`. -/
theorem dsbmm_kd_ge_n_completes_witness :
    (0 < 2 ∧ 2 ≤ 3 ∧ 3 + 1 ≤ 4 ∧ 2 * 4 ≤ ([2, 1, 0, 0, 3, 0, 0, 0] : List ℤ).length) ∧
      ∃ out, dsbmm Uplo.Upper 2 3 ([2, 1, 0, 0, 3, 0, 0, 0] : List ℤ) 4 = some out ∧
        out.length = ([2, 1, 0, 0, 3, 0, 0, 0] : List ℤ).length :=
  ⟨⟨by decide, by decide, by decide, by decide⟩,
    dsbmm_kd_ge_n_completes Uplo.Upper 2 3 4 [2, 1, 0, 0, 3, 0, 0, 0] (by decide) (by decide)
      (by decide) (by decide)⟩

/-- C8: leading-dimension independence of `dsbmm`. For every `uplo`, `n`, `kd`
and leading dimensions `ld1, ld2 ≥ kd+1`, if buffers `a1` (stride `ld1`) and
`a2` (stride `ld2`), each long enough for `n` rows, hold the same value at
offset `j` of row `i` for all `i < n` and `j ≤ kd`, then both calls return and
the outputs again hold the same value at offset `j` of row `i` for all `i < n`
and `j ≤ kd`. -/
theorem dsbmm_ldab_independent {R : Type} [CommRing R] (uplo : Uplo) (n kd ld1 ld2 : Nat)
    (a1 a2 : List R) (hld1 : kd + 1 ≤ ld1) (hld2 : kd + 1 ≤ ld2)
    (hlen1 : n * ld1 ≤ a1.length) (hlen2 : n * ld2 ≤ a2.length)
    (hsame : ∀ i j, i < n → j ≤ kd → rd a1 (i * ld1 + j) = rd a2 (i * ld2 + j)) :
    ∃ o1 o2, dsbmm uplo n kd a1 ld1 = some o1 ∧ dsbmm uplo n kd a2 ld2 = some o2 ∧
      ∀ i j, i < n → j ≤ kd → rd o1 (i * ld1 + j) = rd o2 (i * ld2 + j) := by
  cases uplo with
  | Upper =>
    obtain ⟨o1, f1, _, f3⟩ := upper_loop n kd ld1 a1 hld1 hlen1
    obtain ⟨o2, g1, _, g3⟩ := upper_loop n kd ld2 a2 hld2 hlen2
    refine ⟨o1, o2, f1, g1, fun i j hi hj => ?_⟩
    rw [f3 i j (by omega), g3 i j (by omega)]
    by_cases hq : i < n ∧ j ≤ kd ∧ i + j < n
    · rw [if_pos hq, if_pos hq]
      apply Finset.sum_congr rfl
      intro l hl
      rw [Finset.mem_Icc] at hl
      unfold bandU
      rw [hsame l (i - l) (by omega) (by omega), hsame l (i + j - l) (by omega) (by omega)]
    · rw [if_neg hq, if_neg hq]
      exact hsame i j hi hj
  | Lower =>
    obtain ⟨o1, f1, _, f3⟩ := lower_loop n kd ld1 a1 hld1 hlen1
    obtain ⟨o2, g1, _, g3⟩ := lower_loop n kd ld2 a2 hld2 hlen2
    refine ⟨o1, o2, f1, g1, fun i j hi hj => ?_⟩
    rw [f3 i j (by omega), g3 i j (by omega)]
    by_cases hq : i < n ∧ kd - i ≤ j ∧ j ≤ kd
    · rw [if_pos hq, if_pos hq]
      apply Finset.sum_congr rfl
      intro l hl
      rw [Finset.mem_Icc] at hl
      unfold bandL
      have e1 : ∀ ld, i * ld + kd - (i - l) = i * ld + (kd - (i - l)) := fun ld => by omega
      have e2 : ∀ ld, (i - (kd - j)) * ld + kd - (i - (kd - j) - l) =
          (i - (kd - j)) * ld + (kd - (i - (kd - j) - l)) := fun ld => by omega
      rw [e1, e1, e2, e2, hsame i _ hi (by omega), hsame (i - (kd - j)) _ (by omega) (by omega)]
    · rw [if_neg hq, if_neg hq]
      exact hsame i j hi hj

/-- Instance of C8 for a tightly packed and a padded copy of a 2×2 upper factor. -/
theorem dsbmm_ldab_independent_witness :
    (1 + 1 ≤ 2 ∧ 1 + 1 ≤ 3 ∧ 2 * 2 ≤ ([2, 5, 3, 8] : List ℤ).length ∧
      2 * 3 ≤ ([2, 5, 11, 3, 8, 13] : List ℤ).length ∧
      ∀ i j, i < 2 → j ≤ 1 →
        rd ([2, 5, 3, 8] : List ℤ) (i * 2 + j) = rd ([2, 5, 11, 3, 8, 13] : List ℤ) (i * 3 + j)) ∧
      ∃ o1 o2, dsbmm Uplo.Upper 2 1 ([2, 5, 3, 8] : List ℤ) 2 = some o1 ∧
        dsbmm Uplo.Upper 2 1 ([2, 5, 11, 3, 8, 13] : List ℤ) 3 = some o2 ∧
        ∀ i j, i < 2 → j ≤ 1 → rd o1 (i * 2 + j) = rd o2 (i * 3 + j) :=
  have hsame : ∀ i j, i < 2 → j ≤ 1 →
      rd ([2, 5, 3, 8] : List ℤ) (i * 2 + j) = rd ([2, 5, 11, 3, 8, 13] : List ℤ) (i * 3 + j) := by
    intro i j hi hj
    interval_cases i <;> interval_cases j <;> rfl
  ⟨⟨by decide, by decide, by decide, by decide, hsame⟩,
    dsbmm_ldab_independent Uplo.Upper 2 1 2 3 [2, 5, 3, 8] [2, 5, 11, 3, 8, 13] (by decide)
      (by decide) (by decide) (by decide) hsame⟩

/-- C9: `dsbmm` never reads outside the stored triangle. For every `uplo`, `n`,
`kd`, `ldab ≥ kd+1`, if two input buffers of length at least `n*ldab` agree on
every stored band position (and differ arbitrarily elsewhere), then both calls
return and the two outputs agree on every stored band position. -/
theorem dsbmm_reads_band_only {R : Type} [CommRing R] (uplo : Uplo) (n kd ldab : Nat)
    (F G : List R) (hld : kd + 1 ≤ ldab)
    (hF : n * ldab ≤ F.length) (hG : n * ldab ≤ G.length)
    (hagree : ∀ i j, stored uplo n kd i j → rd F (i * ldab + j) = rd G (i * ldab + j)) :
    ∃ oF oG, dsbmm uplo n kd F ldab = some oF ∧ dsbmm uplo n kd G ldab = some oG ∧
      ∀ i j, stored uplo n kd i j → rd oF (i * ldab + j) = rd oG (i * ldab + j) := by
  cases uplo with
  | Upper =>
    obtain ⟨oF, f1, _, f3⟩ := upper_loop n kd ldab F hld hF
    obtain ⟨oG, g1, _, g3⟩ := upper_loop n kd ldab G hld hG
    refine ⟨oF, oG, f1, g1, fun i j hs => ?_⟩
    simp only [stored] at hs hagree
    rw [f3 i j (by omega), g3 i j (by omega), if_pos (by omega), if_pos (by omega)]
    apply Finset.sum_congr rfl
    intro l hl
    rw [Finset.mem_Icc] at hl
    unfold bandU
    rw [hagree l (i - l) (by omega), hagree l (i + j - l) (by omega)]
  | Lower =>
    obtain ⟨oF, f1, _, f3⟩ := lower_loop n kd ldab F hld hF
    obtain ⟨oG, g1, _, g3⟩ := lower_loop n kd ldab G hld hG
    refine ⟨oF, oG, f1, g1, fun i j hs => ?_⟩
    simp only [stored] at hs hagree
    rw [f3 i j (by omega), g3 i j (by omega), if_pos (by omega), if_pos (by omega)]
    apply Finset.sum_congr rfl
    intro l hl
    rw [Finset.mem_Icc] at hl
    unfold bandL
    have e1 : i * ldab + kd - (i - l) = i * ldab + (kd - (i - l)) := by omega
    have e2 : (i - (kd - j)) * ldab + kd - (i - (kd - j) - l) =
        (i - (kd - j)) * ldab + (kd - (i - (kd - j) - l)) := by omega
    rw [e1, e2, hagree i _ (by omega), hagree (i - (kd - j)) _ (by omega)]

/-- Instance of C9 for two buffers that differ in the padding and in the unstored corner. -/
theorem dsbmm_reads_band_only_witness :
    (1 + 1 ≤ 3 ∧ 2 * 3 ≤ ([2, 5, 11, 3, 8, 13] : List ℤ).length ∧
      2 * 3 ≤ ([2, 5, 17, 3, 19, 23] : List ℤ).length ∧
      ∀ i j, stored Uplo.Upper 2 1 i j →
        rd ([2, 5, 11, 3, 8, 13] : List ℤ) (i * 3 + j) =
          rd ([2, 5, 17, 3, 19, 23] : List ℤ) (i * 3 + j)) ∧
      ∃ oF oG, dsbmm Uplo.Upper 2 1 ([2, 5, 11, 3, 8, 13] : List ℤ) 3 = some oF ∧
        dsbmm Uplo.Upper 2 1 ([2, 5, 17, 3, 19, 23] : List ℤ) 3 = some oG ∧
        ∀ i j, stored Uplo.Upper 2 1 i j → rd oF (i * 3 + j) = rd oG (i * 3 + j) :=
  have hagree : ∀ i j, stored Uplo.Upper 2 1 i j →
      rd ([2, 5, 11, 3, 8, 13] : List ℤ) (i * 3 + j) =
        rd ([2, 5, 17, 3, 19, 23] : List ℤ) (i * 3 + j) := by
    intro i j hs
    simp only [stored] at hs
    obtain ⟨hi, hj⟩ := hs
    interval_cases i
    · have hj2 : j < 2 := by omega
      interval_cases j <;> rfl
    · have hj2 : j < 1 := by omega
      interval_cases j
      rfl
  ⟨⟨by decide, by decide, by decide, hagree⟩,
    dsbmm_reads_band_only Uplo.Upper 2 1 3 [2, 5, 11, 3, 8, 13] [2, 5, 17, 3, 19, 23]
      (by decide) (by decide) (by decide) hagree⟩

/-- C10: for `n = 0`, `dsbmm` is a no-op. For every `uplo`, `kd`, `ldab` and
buffer the call returns the buffer unchanged, and it does so for every BLAS
backend, also one whose kernels always panic: no BLAS step is invoked. -/
theorem dsbmm_zero_noop {R : Type} [CommRing R] (uplo : Uplo) (kd ldab : Nat)
    (ab : List R) :
    dsbmm uplo 0 kd ab ldab = some ab ∧
      ∀ bi : Float64 R, dsbmmWith bi uplo 0 kd ab ldab = some ab := by
  cases uplo <;> exact ⟨rfl, fun _ => rfl⟩

end Testlapack

namespace Blas

/-! ## The dimension checks of `zlevel3.go` -/

/-- C11: `Zgemm` panics with "blas: dimension mismatch" if and only if the
operand shapes are inconsistent. With `(m, k)` the shape of `op(A)` and
`(kb, n)` the shape of `op(B)`, the call panics iff `k ≠ kb` or `m ≠ C.Rows` or
`n ≠ C.Cols`; in every other case it reaches the backend call. -/
theorem Zgemm_panics_iff {K F : Type} (tA tB : Transpose) (alpha : K) (A B : GeneralCmplx K)
    (beta : K) (C : GeneralCmplx K) :
    ((Zgemm tA tB alpha A B beta C : Except String (List (Call K F))) =
        Except.error dimensionMismatch ↔
      (opCols tA A ≠ opRows tB B ∨ opRows tA A ≠ C.Rows ∨ opCols tB B ≠ C.Cols)) ∧
    (¬ (opCols tA A ≠ opRows tB B ∨ opRows tA A ≠ C.Rows ∨ opCols tB B ≠ C.Cols) →
      ∃ c, (Zgemm tA tB alpha A B beta C : Except String (List (Call K F))) =
        Except.ok [c]) := by
  unfold Zgemm opCols opRows
  simp only [bind, Except.bind]
  by_cases h1 : tA = Transpose.NoTrans <;> by_cases h2 : tB = Transpose.NoTrans <;>
    by_cases h3 : opCols tA A = opRows tB B <;>
    by_cases h4 : opRows tA A = C.Rows <;> by_cases h5 : opCols tB B = C.Cols <;>
    simp_all [opCols, opRows]

/-- C12: each of `Zsymm` and `Zhemm` panics with "blas: dimension mismatch" if
and only if the shapes are inconsistent for the chosen side: with `s = Left`
iff `A.N ≠ B.Rows` or `C.Rows ≠ A.N` or `C.Cols ≠ B.Cols`, with any other `s`
iff `A.N ≠ B.Cols` or `C.Rows ≠ B.Rows` or `C.Cols ≠ A.N`. A call that does not
panic has `B` and `C` of identical shape. -/
theorem Zsymm_Zhemm_panic_iff {K F : Type} (s : Side) (alpha : K) (A : SymmetricCmplx K)
    (H : Hermitian K) (B : GeneralCmplx K) (beta : K) (C : GeneralCmplx K) :
    ((Zsymm s alpha A B beta C : Except String (List (Call K F))) =
        Except.error dimensionMismatch ↔
      if s = Side.Left then (A.N ≠ B.Rows ∨ C.Rows ≠ A.N ∨ C.Cols ≠ B.Cols)
      else (A.N ≠ B.Cols ∨ C.Rows ≠ B.Rows ∨ C.Cols ≠ A.N)) ∧
    ((Zhemm s alpha H B beta C : Except String (List (Call K F))) =
        Except.error dimensionMismatch ↔
      if s = Side.Left then (H.N ≠ B.Rows ∨ C.Rows ≠ H.N ∨ C.Cols ≠ B.Cols)
      else (H.N ≠ B.Cols ∨ C.Rows ≠ B.Rows ∨ C.Cols ≠ H.N)) ∧
    ((Zsymm s alpha A B beta C : Except String (List (Call K F))) ≠
        Except.error dimensionMismatch →
      (∃ c, (Zsymm s alpha A B beta C : Except String (List (Call K F))) = Except.ok [c]) ∧
        B.Rows = C.Rows ∧ B.Cols = C.Cols) ∧
    ((Zhemm s alpha H B beta C : Except String (List (Call K F))) ≠
        Except.error dimensionMismatch →
      (∃ c, (Zhemm s alpha H B beta C : Except String (List (Call K F))) = Except.ok [c]) ∧
        B.Rows = C.Rows ∧ B.Cols = C.Cols) := by
  unfold Zsymm Zhemm
  simp only [bind, Except.bind]
  refine ⟨?_, ?_, ?_, ?_⟩ <;> by_cases h1 : s = Side.Left <;>
    simp only [h1, if_true, if_false] <;> split_ifs <;> simp <;> omega

/-- C13: each of `Zsyr2k` and `Zher2k`, for every transpose flag `t`, completes
its validation without panicking if and only if `A` and `B` have identical
shape and `C.N` equals `n`, where `n = A.Rows` for `NoTrans` and `n = A.Cols`
otherwise; in every other case it panics with "blas: dimension mismatch". -/
theorem Zsyr2k_Zher2k_valid_iff {K F : Type} (t : Transpose) (alpha : K)
    (A B : GeneralCmplx K) (beta : K) (betaF : F) (C : SymmetricCmplx K) (H : Hermitian K) :
    ((∃ cs, (Zsyr2k t alpha A B beta C : Except String (List (Call K F))) = Except.ok cs) ↔
      (A.Rows = B.Rows ∧ A.Cols = B.Cols ∧ C.N = opRows t A)) ∧
    (¬ (A.Rows = B.Rows ∧ A.Cols = B.Cols ∧ C.N = opRows t A) →
      (Zsyr2k t alpha A B beta C : Except String (List (Call K F))) =
        Except.error dimensionMismatch) ∧
    ((∃ cs, (Zher2k t alpha A B betaF H : Except String (List (Call K F))) = Except.ok cs) ↔
      (A.Rows = B.Rows ∧ A.Cols = B.Cols ∧ H.N = opRows t A)) ∧
    (¬ (A.Rows = B.Rows ∧ A.Cols = B.Cols ∧ H.N = opRows t A) →
      (Zher2k t alpha A B betaF H : Except String (List (Call K F))) =
        Except.error dimensionMismatch) := by
  unfold Zsyr2k Zher2k opRows
  simp only [bind, Except.bind]
  refine ⟨?_, ?_, ?_, ?_⟩ <;> by_cases h1 : t = Transpose.NoTrans <;>
    simp only [h1, if_true, if_false] <;> split_ifs <;> simp <;> omega

/-- C14: each of `Ztrmm` and `Ztrsm` panics with "blas: dimension mismatch" if
and only if the triangular operand does not fit the side it multiplies on:
with `s = Left` iff `A.N ≠ B.Rows`, with any other `s` iff `A.N ≠ B.Cols`; the
two functions accept exactly the same `(s, A.N, B.Rows, B.Cols)`. -/
theorem Ztrmm_Ztrsm_panic_iff {K F : Type} (s : Side) (tA tA' : Transpose) (alpha alpha' : K)
    (A : TriangularCmplx K) (B : GeneralCmplx K) :
    ((Ztrmm s tA alpha A B : Except String (List (Call K F))) =
        Except.error dimensionMismatch ↔
      if s = Side.Left then A.N ≠ B.Rows else A.N ≠ B.Cols) ∧
    ((Ztrsm s tA alpha A B : Except String (List (Call K F))) =
        Except.error dimensionMismatch ↔
      if s = Side.Left then A.N ≠ B.Rows else A.N ≠ B.Cols) ∧
    ((∃ cs, (Ztrmm s tA alpha A B : Except String (List (Call K F))) = Except.ok cs) ↔
      (∃ cs, (Ztrsm s tA' alpha' A B : Except String (List (Call K F))) = Except.ok cs)) ∧
    (((Ztrmm s tA alpha A B : Except String (List (Call K F))) =
        Except.error dimensionMismatch) ∨
      ∃ c, (Ztrmm s tA alpha A B : Except String (List (Call K F))) = Except.ok [c]) ∧
    (((Ztrsm s tA alpha A B : Except String (List (Call K F))) =
        Except.error dimensionMismatch) ∨
      ∃ c, (Ztrsm s tA alpha A B : Except String (List (Call K F))) = Except.ok [c]) := by
  unfold Ztrmm Ztrsm
  simp only [bind, Except.bind]
  refine ⟨?_, ?_, ?_, ?_, ?_⟩ <;> by_cases h1 : s = Side.Left <;>
    simp only [h1, if_true, if_false] <;> split_ifs <;> simp <;> omega

/-- C15: each of `Zsyrk` and `Zherk` panics with "blas: dimension mismatch" if
and only if `C.N ≠ n`, where `n = A.Rows` for `NoTrans` and `n = A.Cols`
otherwise; when it does not panic the backend is invoked with that `n` and with
`k` the other dimension of `A`. -/
theorem Zsyrk_Zherk_panic_iff {K F : Type} (t : Transpose) (alpha beta : K)
    (alphaF betaF : F) (A : GeneralCmplx K) (C : SymmetricCmplx K) (H : Hermitian K) :
    ((Zsyrk t alpha A beta C : Except String (List (Call K F))) =
        Except.error dimensionMismatch ↔ C.N ≠ opRows t A) ∧
    (¬ C.N ≠ opRows t A →
      (Zsyrk t alpha A beta C : Except String (List (Call K F))) =
        Except.ok [Call.Zsyrk A.Order C.Uplo t (opRows t A) (opCols t A) alpha A.Data A.Stride
          beta C.Data C.Stride]) ∧
    ((Zherk t alphaF A betaF H : Except String (List (Call K F))) =
        Except.error dimensionMismatch ↔ H.N ≠ opRows t A) ∧
    (¬ H.N ≠ opRows t A →
      (Zherk t alphaF A betaF H : Except String (List (Call K F))) =
        Except.ok [Call.Zherk A.Order H.Uplo t (opRows t A) (opCols t A) alphaF A.Data A.Stride
          betaF H.Data H.Stride]) := by
  unfold Zsyrk Zherk opRows opCols
  simp only [bind, Except.bind]
  refine ⟨?_, ?_, ?_, ?_⟩ <;> by_cases h1 : t = Transpose.NoTrans <;>
    simp only [h1, if_true, if_false] <;> split_ifs <;> simp <;> omega

/-- C17: when its dimension checks pass, `Zgemm` invokes the backend exactly
once and forwards the derived dimensions unchanged: `m` the rows of `op(A)`,
`n` the columns of `op(B)`, `k` the columns of `op(A)`, together with
`A.Order`, `tA`, `tB`, `alpha`, `beta` and the `Data` and `Stride` fields of
`A`, `B` and `C` as given. -/
theorem Zgemm_forwards {K F : Type} (tA tB : Transpose) (alpha : K) (A B : GeneralCmplx K)
    (beta : K) (C : GeneralCmplx K)
    (hk : opCols tA A = opRows tB B) (hm : opRows tA A = C.Rows)
    (hn : opCols tB B = C.Cols) :
    (Zgemm tA tB alpha A B beta C : Except String (List (Call K F))) =
      Except.ok [Call.Zgemm A.Order tA tB (opRows tA A) (opCols tB B) (opCols tA A) alpha
        A.Data A.Stride B.Data B.Stride beta C.Data C.Stride] := by
  revert hk hm hn
  unfold Zgemm opCols opRows
  simp only [bind, Except.bind]
  by_cases h1 : tA = Transpose.NoTrans <;> by_cases h2 : tB = Transpose.NoTrans <;>
    simp only [h1, h2, if_true, if_false] <;> intro hk hm hn <;>
    simp [hk, hm, hn]

/-- Instance of C17 for a `2×3` by `3×4` product with `tB = Trans`. -/
theorem Zgemm_forwards_witness :
    (opCols Transpose.NoTrans (⟨Order.RowMajor, 2, 3, 3, [1, 2, 3, 4, 5, 6]⟩ : GeneralCmplx Int) =
        opRows Transpose.Trans (⟨Order.RowMajor, 4, 3, 3, []⟩ : GeneralCmplx Int) ∧
      opRows Transpose.NoTrans (⟨Order.RowMajor, 2, 3, 3, [1, 2, 3, 4, 5, 6]⟩ : GeneralCmplx Int) =
        (⟨Order.RowMajor, 2, 4, 4, []⟩ : GeneralCmplx Int).Rows ∧
      opCols Transpose.Trans (⟨Order.RowMajor, 4, 3, 3, []⟩ : GeneralCmplx Int) =
        (⟨Order.RowMajor, 2, 4, 4, []⟩ : GeneralCmplx Int).Cols) ∧
    (Zgemm Transpose.NoTrans Transpose.Trans (1 : Int)
        ⟨Order.RowMajor, 2, 3, 3, [1, 2, 3, 4, 5, 6]⟩ ⟨Order.RowMajor, 4, 3, 3, []⟩ 0
        ⟨Order.RowMajor, 2, 4, 4, []⟩ : Except String (List (Call Int Int))) =
      Except.ok [Call.Zgemm Order.RowMajor Transpose.NoTrans Transpose.Trans
        (opRows Transpose.NoTrans (⟨Order.RowMajor, 2, 3, 3, [1, 2, 3, 4, 5, 6]⟩ : GeneralCmplx Int))
        (opCols Transpose.Trans (⟨Order.RowMajor, 4, 3, 3, []⟩ : GeneralCmplx Int))
        (opCols Transpose.NoTrans (⟨Order.RowMajor, 2, 3, 3, [1, 2, 3, 4, 5, 6]⟩ : GeneralCmplx Int))
        1 [1, 2, 3, 4, 5, 6] 3 [] 3 0 [] 4] :=
  ⟨⟨by decide, by decide, by decide⟩,
    Zgemm_forwards Transpose.NoTrans Transpose.Trans (1 : Int)
      ⟨Order.RowMajor, 2, 3, 3, [1, 2, 3, 4, 5, 6]⟩ ⟨Order.RowMajor, 4, 3, 3, []⟩ 0
      ⟨Order.RowMajor, 2, 4, 4, []⟩ (by decide) (by decide) (by decide)⟩

theorem forDownFrom_inv {σ : Type} (body : Nat → σ → Option σ) (P : Nat → σ → Prop) :
    ∀ (cnt lo : Nat) (s : σ), P (lo + cnt) s →
      (∀ j t, lo ≤ j → j < lo + cnt → P (j + 1) t → ∃ t', body j t = some t' ∧ P j t') →
      ∃ s', forDownFrom body lo cnt s = some s' ∧ P lo s' := by
  intro cnt
  induction cnt with
  | zero => intro lo s h0 _; exact ⟨s, rfl, h0⟩
  | succ c ih =>
    intro lo s h0 hstep
    obtain ⟨t, ht, hPt⟩ := hstep (lo + c) s (by omega) (by omega) h0
    obtain ⟨s', hs', hP'⟩ := ih lo t hPt (fun j u h1 h2 hP => hstep j u h1 (by omega) hP)
    exact ⟨s', by simp [forDownFrom, ht, hs'], hP'⟩

theorem forDown_eq_forDownFrom {σ : Type} (body : Nat → σ → Option σ) :
    ∀ (n : Nat) (s : σ), forDown body n s = forDownFrom body 0 n s := by
  intro n
  induction n with
  | zero => intro s; rfl
  | succ c ih =>
    intro s
    have e : forDown body c = forDownFrom body 0 c := funext ih
    simp only [forDown, forDownFrom, Nat.zero_add, e]

theorem forDownFrom_split {σ : Type} (body : Nat → σ → Option σ) :
    ∀ (c1 c2 lo : Nat) (s : σ),
      forDownFrom body lo (c1 + c2) s =
        (forDownFrom body (lo + c2) c1 s).bind (forDownFrom body lo c2) := by
  intro c1
  induction c1 with
  | zero => intro c2 lo s; simp [forDownFrom]
  | succ c ih =>
    intro c2 lo s
    have e1 : c + 1 + c2 = (c + c2) + 1 := by omega
    have e2 : lo + (c + c2) = lo + c2 + c := by omega
    have e3 : forDownFrom body lo (c + c2) =
        fun t => (forDownFrom body (lo + c2) c t).bind (forDownFrom body lo c2) :=
      funext (ih c2 lo)
    rw [e1]
    simp only [forDownFrom, e2, e3, Option.bind_assoc]

end Blas

namespace Testlapack

open Blas

/-! ## Frame, row order and transposition -/

theorem dsbmm_eq_loop {R : Type} [CommRing R] (uplo : Uplo) (n kd ldab : Nat) (ab : List R) :
    dsbmm uplo n kd ab ldab = forDown (loopBody Implementation uplo n kd ldab) n ab := by
  cases uplo <;> rfl

theorem loopBody_spec {R : Type} [CommRing R] (uplo : Uplo) (n kd ldab j : Nat) (t : List R)
    (hj : j < n) (hld : kd + 1 ≤ ldab) (hlen : n * ldab ≤ t.length) :
    ∃ t', loopBody Implementation uplo n kd ldab j t = some t' ∧ t'.length = t.length ∧
      ∀ i d, i < j → d < ldab → rd t' (i * ldab + d) = rd t (i * ldab + d) := by
  cases uplo with
  | Upper =>
    obtain ⟨t', e1, e2, e3⟩ := upperStep_spec n kd ldab j t hj hld hlen
    refine ⟨t', e1, e2, fun i d hi hd => ?_⟩
    rw [e3 i d hd, if_neg (by omega), if_neg (by omega)]
  | Lower =>
    obtain ⟨t', e1, e2, e3⟩ := lowerStep_spec n kd ldab j t hj hld hlen
    refine ⟨t', e1, e2, fun i d hi hd => ?_⟩
    rw [e3 i d hd, if_neg (by omega)]

theorem exists_row_offset (ld p : Nat) (h : 0 < ld) : ∃ i d, d < ld ∧ p = i * ld + d :=
  ⟨p / ld, p % ld, Nat.mod_lt _ h, by rw [Nat.mul_comm]; exact (Nat.div_add_mod p ld).symm⟩

/-- C16: back-to-front processing keeps unprocessed rows pristine. For either
`uplo`, `ldab ≥ kd+1`, a buffer of length at least `n*ldab` and every step
`k < n` of the loop running from `n-1` down to `0`, the buffer state `S` at the
moment step `k` begins exists, the loop continues from `S` with step `k`, and
every entry of rows `0..k` of `S` equals its input value; these rows contain
all factor entries step `k` reads. -/
theorem dsbmm_rows_pristine {R : Type} [CommRing R] (uplo : Uplo) (n kd ldab : Nat)
    (ab : List R) (hld : kd + 1 ≤ ldab) (hlen : n * ldab ≤ ab.length) (k : Nat) (hk : k < n) :
    ∃ S, stateBefore uplo n kd ab ldab k = some S ∧
      dsbmm uplo n kd ab ldab =
        (loopBody Implementation uplo n kd ldab k S).bind
          (forDown (loopBody Implementation uplo n kd ldab) k) ∧
      S.length = ab.length ∧
      ∀ i d, i ≤ k → d < ldab → rd S (i * ldab + d) = rd ab (i * ldab + d) := by
  have key := forDownFrom_inv (loopBody (Implementation : Float64 R) uplo n kd ldab)
    (fun j S => S.length = ab.length ∧
      ∀ i d, i < j → d < ldab → rd S (i * ldab + d) = rd ab (i * ldab + d))
    (n - (k + 1)) (k + 1) ab ⟨rfl, fun _ _ _ _ => rfl⟩ ?_
  · obtain ⟨S, h1, h2, h3⟩ := key
    refine ⟨S, by unfold stateBefore; exact h1, ?_, h2, fun i d hi hd => h3 i d (by omega) hd⟩
    have hsplit := forDownFrom_split (loopBody (Implementation : Float64 R) uplo n kd ldab)
      (n - (k + 1)) (k + 1) 0 ab
    have e1 : n - (k + 1) + (k + 1) = n := by omega
    rw [e1, Nat.zero_add, h1, Option.some_bind] at hsplit
    rw [dsbmm_eq_loop, forDown_eq_forDownFrom, hsplit, ← forDown_eq_forDownFrom]
    rfl
  · intro j t hj1 hj2 ⟨hl, hrd⟩
    obtain ⟨t', e1, e2, e3⟩ := loopBody_spec uplo n kd ldab j t (by omega) hld (by omega)
    refine ⟨t', e1, by omega, fun i d hi hd => ?_⟩
    rw [e3 i d hi hd]
    exact hrd i d (by omega) hd

/-- Instance of C16 for step `k = 1` of a 3×3 lower factor. -/
theorem dsbmm_rows_pristine_witness :
    (1 + 1 ≤ 2 ∧ 3 * 2 ≤ ([100, 2, 1, 3, 5, 7] : List ℤ).length ∧ 1 < 3) ∧
      ∃ S, stateBefore Uplo.Lower 3 1 ([100, 2, 1, 3, 5, 7] : List ℤ) 2 1 = some S ∧
        dsbmm Uplo.Lower 3 1 ([100, 2, 1, 3, 5, 7] : List ℤ) 2 =
          (loopBody Implementation Uplo.Lower 3 1 2 1 S).bind
            (forDown (loopBody Implementation Uplo.Lower 3 1 2) 1) ∧
        S.length = ([100, 2, 1, 3, 5, 7] : List ℤ).length ∧
        ∀ i d, i ≤ 1 → d < 2 →
          rd S (i * 2 + d) = rd ([100, 2, 1, 3, 5, 7] : List ℤ) (i * 2 + d) :=
  ⟨⟨by decide, by decide, by decide⟩,
    dsbmm_rows_pristine Uplo.Lower 3 1 2 [100, 2, 1, 3, 5, 7] (by decide) (by decide) 1
      (by decide)⟩

/-- C18: `dsbmm` writes only stored band positions. For every `uplo`, `n`,
`kd`, `ldab ≥ kd+1` and buffer of length at least `n*ldab` the call returns a
buffer of the same length, and every index that is not a stored band position
(padding, unstored corner, or beyond row `n-1`) holds the same value after the
call as before. -/
theorem dsbmm_writes_band_only {R : Type} [CommRing R] (uplo : Uplo) (n kd ldab : Nat)
    (ab : List R) (hld : kd + 1 ≤ ldab) (hlen : n * ldab ≤ ab.length) :
    ∃ out, dsbmm uplo n kd ab ldab = some out ∧ out.length = ab.length ∧
      ∀ p, (∀ i j, stored uplo n kd i j → p ≠ i * ldab + j) → rd out p = rd ab p := by
  cases uplo with
  | Upper =>
    obtain ⟨out, h1, h2, h3⟩ := upper_loop n kd ldab ab hld hlen
    refine ⟨out, h1, h2, fun p hp => ?_⟩
    obtain ⟨i, d, hd, rfl⟩ := exists_row_offset ldab p (by omega)
    rw [h3 i d hd]
    by_cases hq : i < n ∧ d ≤ kd ∧ i + d < n
    · exact absurd rfl (hp i d (by simp only [stored]; omega))
    · rw [if_neg hq]
  | Lower =>
    obtain ⟨out, h1, h2, h3⟩ := lower_loop n kd ldab ab hld hlen
    refine ⟨out, h1, h2, fun p hp => ?_⟩
    obtain ⟨i, d, hd, rfl⟩ := exists_row_offset ldab p (by omega)
    rw [h3 i d hd]
    by_cases hq : i < n ∧ kd - i ≤ d ∧ d ≤ kd
    · exact absurd rfl (hp i d (by simp only [stored]; omega))
    · rw [if_neg hq]

/-- Instance of C18 for a padded 2×2 upper factor. -/
theorem dsbmm_writes_band_only_witness :
    (1 + 1 ≤ 3 ∧ 2 * 3 ≤ ([2, 5, 11, 3, 8, 13, 17] : List ℤ).length) ∧
      ∃ out, dsbmm Uplo.Upper 2 1 ([2, 5, 11, 3, 8, 13, 17] : List ℤ) 3 = some out ∧
        out.length = ([2, 5, 11, 3, 8, 13, 17] : List ℤ).length ∧
        ∀ p, (∀ i j, stored Uplo.Upper 2 1 i j → p ≠ i * 3 + j) →
          rd out p = rd ([2, 5, 11, 3, 8, 13, 17] : List ℤ) p :=
  ⟨⟨by decide, by decide⟩,
    dsbmm_writes_band_only Uplo.Upper 2 1 3 [2, 5, 11, 3, 8, 13, 17] (by decide) (by decide)⟩

/-- C19: the Upper and Lower branches of `dsbmm` agree under transposition. For
`ldab ≥ kd+1` and buffers `u`, `l` of length at least `n*ldab` that store
transposed factors, `u[i*ldab + d] = l[(i+d)*ldab + kd - d]` for every `i < n`
and `d ≤ min(kd, n-1-i)`, both calls return and the same relation holds between
the two output buffers. -/
theorem dsbmm_upper_lower_transpose {R : Type} [CommRing R] (n kd ldab : Nat) (u l : List R)
    (hld : kd + 1 ≤ ldab) (hu : n * ldab ≤ u.length) (hl : n * ldab ≤ l.length)
    (hrel : ∀ i d, i < n → d ≤ min kd (n - 1 - i) →
      rd u (i * ldab + d) = rd l ((i + d) * ldab + kd - d)) :
    ∃ ou ol, dsbmm Uplo.Upper n kd u ldab = some ou ∧ dsbmm Uplo.Lower n kd l ldab = some ol ∧
      ∀ i d, i < n → d ≤ min kd (n - 1 - i) →
        rd ou (i * ldab + d) = rd ol ((i + d) * ldab + kd - d) := by
  obtain ⟨ou, f1, _, f3⟩ := upper_loop n kd ldab u hld hu
  obtain ⟨ol, g1, _, g3⟩ := lower_loop n kd ldab l hld hl
  refine ⟨ou, ol, f1, g1, fun i d hi hd => ?_⟩
  have e0 : (i + d) * ldab + kd - d = (i + d) * ldab + (kd - d) := by omega
  have e1 : i + d - (kd - (kd - d)) = i := by omega
  rw [f3 i d (by omega), if_pos (by omega), e0, g3 (i + d) (kd - d) (by omega),
    if_pos (by omega), e1]
  apply Finset.sum_congr rfl
  intro c hc
  rw [Finset.mem_Icc] at hc
  have h1 := hrel c (i - c) (by omega) (by omega)
  have h2 := hrel c (i + d - c) (by omega) (by omega)
  have e2 : c + (i - c) = i := by omega
  have e3 : c + (i + d - c) = i + d := by omega
  rw [e2] at h1
  rw [e3] at h2
  unfold bandU bandL
  rw [h1, h2, mul_comm]

/-- Instance of C19 for a 2×2 upper factor and its transpose. -/
theorem dsbmm_upper_lower_transpose_witness :
    (1 + 1 ≤ 2 ∧ 2 * 2 ≤ ([2, 5, 3, 8] : List ℤ).length ∧
      2 * 2 ≤ ([9, 2, 5, 3] : List ℤ).length ∧
      ∀ i d, i < 2 → d ≤ min 1 (2 - 1 - i) →
        rd ([2, 5, 3, 8] : List ℤ) (i * 2 + d) =
          rd ([9, 2, 5, 3] : List ℤ) ((i + d) * 2 + 1 - d)) ∧
      ∃ ou ol, dsbmm Uplo.Upper 2 1 ([2, 5, 3, 8] : List ℤ) 2 = some ou ∧
        dsbmm Uplo.Lower 2 1 ([9, 2, 5, 3] : List ℤ) 2 = some ol ∧
        ∀ i d, i < 2 → d ≤ min 1 (2 - 1 - i) →
          rd ou (i * 2 + d) = rd ol ((i + d) * 2 + 1 - d) :=
  have hrel : ∀ i d, i < 2 → d ≤ min 1 (2 - 1 - i) →
      rd ([2, 5, 3, 8] : List ℤ) (i * 2 + d) =
        rd ([9, 2, 5, 3] : List ℤ) ((i + d) * 2 + 1 - d) := by
    intro i d hi hd
    interval_cases i
    · have hd2 : d < 2 := by omega
      interval_cases d <;> rfl
    · have hd2 : d < 1 := by omega
      interval_cases d
      rfl
  ⟨⟨by decide, by decide, by decide, hrel⟩,
    dsbmm_upper_lower_transpose 2 1 2 [2, 5, 3, 8] [9, 2, 5, 3] (by decide) (by decide)
      (by decide) hrel⟩

/-- C20: with bandwidth `kd = 0`, `dsbmm` replaces each diagonal entry by its
own square, independently of all other rows. For either `uplo`, `ldab ≥ 1` and
a buffer of length at least `n*ldab` the call returns, the output satisfies
`ab'[i*ldab] = ab[i*ldab] * ab[i*ldab]` for every `i < n`, and no other entry
changes. -/
theorem dsbmm_diagonal_squares {R : Type} [CommRing R] (uplo : Uplo) (n ldab : Nat)
    (ab : List R) (hld : 1 ≤ ldab) (hlen : n * ldab ≤ ab.length) :
    ∃ out, dsbmm uplo n 0 ab ldab = some out ∧ out.length = ab.length ∧
      (∀ i, i < n → rd out (i * ldab) = rd ab (i * ldab) * rd ab (i * ldab)) ∧
      ∀ p, (∀ i, i < n → p ≠ i * ldab) → rd out p = rd ab p := by
  cases uplo with
  | Upper =>
    obtain ⟨out, h1, h2, h3⟩ := upper_loop n 0 ldab ab (by omega) hlen
    refine ⟨out, h1, h2, fun i hi => ?_, fun p hp => ?_⟩
    · have h := h3 i 0 (by omega)
      rw [if_pos (by omega)] at h
      simp only [Nat.add_zero, Nat.sub_zero, Finset.Icc_self, Finset.sum_singleton, bandU,
        Nat.sub_self] at h
      exact h
    · obtain ⟨i, d, hd, rfl⟩ := exists_row_offset ldab p (by omega)
      rw [h3 i d hd]
      by_cases hq : i < n ∧ d ≤ 0 ∧ i + d < n
      · have hd0 : d = 0 := by omega
        subst hd0
        exact absurd rfl (hp i hq.1)
      · rw [if_neg hq]
  | Lower =>
    obtain ⟨out, h1, h2, h3⟩ := lower_loop n 0 ldab ab (by omega) hlen
    refine ⟨out, h1, h2, fun i hi => ?_, fun p hp => ?_⟩
    · have h := h3 i 0 (by omega)
      rw [if_pos (by omega)] at h
      simp only [Nat.add_zero, Nat.sub_zero, Finset.Icc_self, Finset.sum_singleton, bandL,
        Nat.sub_self] at h
      exact h
    · obtain ⟨i, d, hd, rfl⟩ := exists_row_offset ldab p (by omega)
      rw [h3 i d hd]
      by_cases hq : i < n ∧ 0 - i ≤ d ∧ d ≤ 0
      · have hd0 : d = 0 := by omega
        subst hd0
        exact absurd rfl (hp i hq.1)
      · rw [if_neg hq]

/-- Instance of C20 for three rows with a padded leading dimension. -/
theorem dsbmm_diagonal_squares_witness :
    (1 ≤ 2 ∧ 3 * 2 ≤ ([2, 11, 3, 13, 5, 17] : List ℤ).length) ∧
      ∃ out, dsbmm Uplo.Lower 3 0 ([2, 11, 3, 13, 5, 17] : List ℤ) 2 = some out ∧
        out.length = ([2, 11, 3, 13, 5, 17] : List ℤ).length ∧
        (∀ i, i < 3 → rd out (i * 2) =
          rd ([2, 11, 3, 13, 5, 17] : List ℤ) (i * 2) *
            rd ([2, 11, 3, 13, 5, 17] : List ℤ) (i * 2)) ∧
        ∀ p, (∀ i, i < 3 → p ≠ i * 2) → rd out p = rd ([2, 11, 3, 13, 5, 17] : List ℤ) p :=
  ⟨⟨by decide, by decide⟩,
    dsbmm_diagonal_squares Uplo.Lower 3 2 [2, 11, 3, 13, 5, 17] (by decide) (by decide)⟩

open Blas Go

/-- C3 (counterexample): in `float64` arithmetic a strictly positive diagonal
does not make the result positive definite. For `n = 1`, `kd = 0`, `ldab = 1`
and the buffer `[2^-600]`, whose diagonal entry is strictly positive,
`dsbmm(Upper, 1, 0, ab, 1)` computes `2^-600 * 2^-600`, which underflows to
zero: the output buffer is `[0]`, the matrix it represents is the zero matrix,
and `xᵀ*A*x = 0` for the non-zero vector `x = (1)`. -/
theorem dsbmm_float64_not_positive_definite :
    (0 + 1 ≤ 1 ∧ 1 * 1 ≤ [F64.fin 1 (-600)].length ∧
      ∀ i, i < 1 → 0 < F64.toRat (rd [F64.fin 1 (-600)] (i * 1 + diagOffset Uplo.Upper 0))) ∧
    dsbmm Uplo.Upper 1 0 [F64.fin 1 (-600)] 1 = some [F64.fin 0 0] ∧
    (∃ i, i < 1 ∧ (fun _ : Nat => (1 : ℚ)) i ≠ 0) ∧
    ¬ 0 < quadForm 1 (symBand Uplo.Upper 0 1 ([F64.fin 0 0].map F64.toRat))
      (fun _ : Nat => (1 : ℚ)) := by
  refine ⟨⟨by decide, by decide, ?_⟩, by decide, ⟨0, by decide, one_ne_zero⟩, ?_⟩
  · intro i hi
    have hi0 : i = 0 := by omega
    subst hi0
    simp only [rd, diagOffset, F64.toRat, Nat.zero_mul, Nat.add_zero, List.getD_cons_zero,
      Int.cast_one, one_mul]
    positivity
  · simp [quadForm, symBand, rd, F64.toRat]

/-- Rounding alone also loses positivity in `float64`. For the upper factor
`U = [[1, 10^8], [0, 1]]` (`n = 2`, `kd = 1`, `ldab = 2`) the entry
`10^16 + 1` of `Uᵀ*U` rounds to `10^16`, the output represents the singular
matrix `[[1, 10^8], [10^8, 10^16]]`, and `xᵀ*A*x = 0` for `x = (10^8, -1)`. -/
theorem dsbmm_float64_rounding_singular :
    dsbmm Uplo.Upper 2 1 [F64.fin 1 0, F64.fin (10 ^ 8) 0, F64.fin 1 0, F64.fin 0 0] 2 =
      some [F64.fin 1 0, F64.fin (10 ^ 8) 0, F64.fin (5 * 10 ^ 15) 1, F64.fin 0 0] ∧
    ¬ 0 < quadForm 2
      (symBand Uplo.Upper 1 2
        ([F64.fin 1 0, F64.fin (10 ^ 8) 0, F64.fin (5 * 10 ^ 15) 1, F64.fin 0 0].map F64.toRat))
      (fun i : Nat => if i = 0 then (10 : ℚ) ^ 8 else -1) := by
  refine ⟨by decide, ?_⟩
  simp [quadForm, symBand, rd, F64.toRat, Finset.sum_range_succ]
  norm_num

end Testlapack
